import Mathlib

/-! The map task of `mapreduce` (`common_map.go`).

A shallow embedding of `doMap` and `ihash` and the proofs of their
partitioning contract, followed by the JSON encoding of the records
(`encoding/json`, with `unicode/utf8`) and its round trip.

* Go strings are byte sequences: `GoString := List Byte`.
* `uint32` arithmetic is arithmetic on `Nat` reduced `% 2 ^ 32`; `int` values
  are `Int`.
* `doMap` talks to the operating system.  The embedding threads an oracle
  `OS` that decides which calls fail, and returns how the call ended
  (`Outcome`) together with the sequence of calls made (`Event`s), in program
  order.
-/

namespace MapReduce

/-- A byte, the element type of Go strings and of `[]byte`. -/
abbrev Byte := Fin 256

/-- A Go `string`: an immutable sequence of bytes (not necessarily UTF-8). -/
abbrev GoString := List Byte

/-- Modelled from the spec: the record type `KeyValue`, declared in `common.go`,
which is not among the sources; the spec gives it as `{Key: string, Value:
string}`, and `doMap` reads its field `Key`. -/
structure KeyValue where
  Key : GoString
  Value : GoString
  deriving DecidableEq

/-! ## `hash/fnv`, 32-bit FNV-1a, as used by `ihash` -/

namespace fnv

/-- Constant `offset32` of `hash/fnv`. -/
def offset32 : Nat := 2166136261

/-- Constant `prime32` of `hash/fnv`. -/
def prime32 : Nat := 16777619

/-- The call `fnv.New32a()`: a fresh `sum32a` holding `offset32`. -/
def New32a : Nat := offset32

/-- The method `(*sum32a).Write`: for each byte `c` of `data`,
`hash ^= sum32a(c); hash *= prime32` on `uint32`. -/
def Write : Nat → List Byte → Nat
  | hash, [] => hash
  | hash, c :: data => Write (((hash ^^^ c.val) * prime32) % 2 ^ 32) data

/-- The method `(*sum32a).Sum32`. -/
def Sum32 (s : Nat) : Nat := s

end fnv

/-- The function `ihash` of `common_map.go`:
`h := fnv.New32a(); h.Write([]byte(s)); return int(h.Sum32() & 0x7fffffff)`. -/
def ihash (s : GoString) : Int :=
  let h := fnv.New32a
  let h := fnv.Write h s
  ((fnv.Sum32 h &&& 0x7fffffff : Nat) : Int)

/-- The 32-bit FNV-1a hash as the specification words it: start from
`2166136261`; for each byte `b` in order, `h := ((h xor b) * 16777619) mod 2^32`. -/
def fnv1a32 (bytes : List Byte) : Nat :=
  bytes.foldl (fun h b => ((h ^^^ b.val) * 16777619) % 2 ^ 32) 2166136261

/-- The statement `reduceID := ihash(kv.Key) % nReduce` of `doMap`, for a
non-zero `nReduce`.  Go's `%` on `int` truncates towards zero. -/
def reduceID (key : GoString) (nReduce : Int) : Int :=
  Int.tmod (ihash key) nReduce

/-! ## The operating system seen by `doMap` -/

/-- Which calls of `doMap` into the operating system fail. -/
structure OS where
  /-- The call `os.Open(name)` returns an error. -/
  openErr : GoString → Bool
  /-- The call `ioutil.ReadAll` on the opened file: its contents, or `none` on an error. -/
  readAll : GoString → Option GoString
  /-- The call `os.Create(name)` returns an error. -/
  createErr : GoString → Bool
  /-- The text `err.Error()` of the error `os.Create(name)` returns, when it
  returns one. -/
  createErrText : GoString → String
  /-- The `i`-th call of `Encode` (counted from 0 in program order) returns an error. -/
  encodeErr : Nat → Bool
  /-- The call `Close` on the shard file of index `r` returns an error. -/
  closeErr : Nat → Bool

/-- The calls `doMap` makes, in program order, with their success. -/
inductive Event where
  /-- The call `os.Open(inFile)`. -/
  | openInput (name : GoString) (ok : Bool)
  /-- The call `ioutil.ReadAll(fileStream)`. -/
  | readInput (ok : Bool)
  /-- The call `mapF(inFile, contents)`. -/
  | callMapF (filename contents : GoString)
  /-- The call `os.Create(name)`. -/
  | create (name : GoString) (ok : Bool)
  /-- The call `enc[shard].Encode(kv)`, whose encoder writes to `file`. -/
  | encode (shard : Nat) (file : GoString) (kv : KeyValue) (ok : Bool)
  /-- The call `f.Close()` on the shard file `files[shard]`. -/
  | close (shard : Nat) (file : GoString) (ok : Bool)
  /-- The deferred `fileStream.Close()` of the input file. -/
  | closeInput
  deriving DecidableEq

/-- How a call of `doMap` ends. -/
inductive Outcome where
  /-- The function returns to its caller. -/
  | returned
  /-- The call `log.Fatal` printed `msg` and exited the process with status 1. -/
  | fatal (msg : String)
  /-- A run-time panic of Go. -/
  | panic (msg : String)
  deriving DecidableEq

/-! ## `doMap` -/

/-- Constant `maxAlloc` of the Go runtime on a 64-bit platform (`1 << 48`):
the largest allocation `makeslice` accepts. -/
def maxAlloc : Int := 281474976710656

/-- Constant `PtrSize` of the Go runtime on a 64-bit platform: the size of
an element of `[]*os.File` and of `[]*json.Encoder`. -/
def ptrSize : Int := 8

/-- The check of `runtime.makeslice` for `make([]*T, 0, cap)`: it panics with
`makeslice: cap out of range` when `cap` is negative or `cap` elements do not
fit in `maxAlloc` bytes (on a 64-bit platform: when `cap > 1 << 45`). -/
def makesliceCapOutOfRange (cap : Int) : Bool :=
  decide (cap < 0 ∨ maxAlloc < ptrSize * cap)

section doMap

variable (reduceName : GoString → Int → Int → GoString) (os : OS)

/-- The loop `for r := 0; r < nReduce; r++ { ... os.Create ... }` of `doMap`,
over the values `rs` that `r` still takes; `files` is the slice built so far
(`enc` holds one encoder per element of `files`, at the same index).  The
result is the finished slice, or the message of `log.Fatal("doMap Create: ",
err)`. -/
def createLoop (jobName : GoString) (mapTask : Int) :
    List Nat → List GoString → Except String (List GoString) × List Event
  | [], files => (Except.ok files, [])
  | r :: rs, files =>
    let filename := reduceName jobName mapTask (r : Int)
    if os.createErr filename then
      (Except.error ("doMap Create: " ++ os.createErrText filename),
        [Event.create filename false])
    else
      let res := createLoop jobName mapTask rs (files ++ [filename])
      (res.1, Event.create filename true :: res.2)

/-- The loop `for _, kv := range mapOutput { reduceID := ihash(kv.Key) % nReduce;
enc[reduceID].Encode(kv) }` of `doMap`; `i` counts the calls of `Encode` made
so far.  The error `Encode` returns is dropped, as in the source.  The result
is `some msg` when the loop panics. -/
def encodeLoop (nReduce : Int) (enc : List GoString) :
    List KeyValue → Nat → Option String × List Event
  | [], _ => (none, [])
  | kv :: rest, i =>
    if nReduce = 0 then
      (some "runtime error: integer divide by zero", [])
    else
      let reduceID := Int.tmod (ihash kv.Key) nReduce
      if reduceID < 0 then
        (some "runtime error: index out of range", [])
      else
        match enc.get? reduceID.toNat with
        | none => (some "runtime error: index out of range", [])
        | some file =>
          let res := encodeLoop nReduce enc rest (i + 1)
          (res.1, Event.encode reduceID.toNat file kv (!os.encodeErr i) :: res.2)

/-- The loop `for _, f := range files { f.Close() }` of `doMap`; `r` is the
index of the head of the remaining slice.  The error `Close` returns is
dropped, as in the source. -/
def closeLoop : List GoString → Nat → List Event
  | [], _ => []
  | f :: rest, r => Event.close r f (!os.closeErr r) :: closeLoop rest (r + 1)

/-- The function `doMap` of `common_map.go`.  The two `make` calls have the
same capacity and element size, so the first one decides whether `makeslice`
panics; an allocation that passes the check is taken to succeed. -/
def doMap (jobName : GoString) (mapTask : Int) (inFile : GoString) (nReduce : Int)
    (mapF : GoString → GoString → List KeyValue) : Outcome × List Event :=
  if os.openErr inFile then
    (Outcome.fatal "open file error in doMap", [Event.openInput inFile false])
  else
    match os.readAll inFile with
    | none =>
      (Outcome.fatal "read file error in doMap",
        [Event.openInput inFile true, Event.readInput false])
    | some fileContent =>
      let mapOutput := mapF inFile fileContent
      let tr := [Event.openInput inFile true, Event.readInput true,
        Event.callMapF inFile fileContent]
      if makesliceCapOutOfRange nReduce then
        (Outcome.panic "runtime error: makeslice: cap out of range", tr ++ [Event.closeInput])
      else
        match createLoop reduceName os jobName mapTask (List.range nReduce.toNat) [] with
        | (Except.error msg, evs) => (Outcome.fatal msg, tr ++ evs)
        | (Except.ok files, evs) =>
          match encodeLoop os nReduce files mapOutput 0 with
          | (some msg, evs2) => (Outcome.panic msg, tr ++ evs ++ evs2 ++ [Event.closeInput])
          | (none, evs2) =>
            (Outcome.returned, tr ++ evs ++ evs2 ++ closeLoop os files 0 ++ [Event.closeInput])

end doMap

/-! ## Reading a run -/

/-- The records written to shard `r` during a run, in write order: the
arguments of the successful `Encode` calls on `enc[r]`. -/
def shardRecords (r : Nat) (evs : List Event) : List KeyValue :=
  evs.filterMap fun e =>
    match e with
    | Event.encode s _ kv true => if s = r then some kv else none
    | _ => none

/-- The records written to the file called `name` during a run, in write
order: the arguments of the successful `Encode` calls of the encoders on that
file. -/
def fileRecords (name : GoString) (evs : List Event) : List KeyValue :=
  evs.filterMap fun e =>
    match e with
    | Event.encode _ file kv true => if file = name then some kv else none
    | _ => none

/-- The arguments of all `Encode` calls of a run, in call order. -/
def encodedRecords (evs : List Event) : List KeyValue :=
  evs.filterMap fun e =>
    match e with
    | Event.encode _ _ kv _ => some kv
    | _ => none

/-- The names passed to `os.Create` during a run, in call order. -/
def createdNames (evs : List Event) : List GoString :=
  evs.filterMap fun e =>
    match e with
    | Event.create name _ => some name
    | _ => none

/-- The shard indices on which `Close` was called during a run, with the
file closed, in call order. -/
def closedShards (evs : List Event) : List (Nat × GoString) :=
  evs.filterMap fun e =>
    match e with
    | Event.close r f _ => some (r, f)
    | _ => none

/-- An operating system in which no call fails and every file reads as `contents`. -/
def OS.allOk (contents : GoString) : OS where
  openErr := fun _ => false
  readAll := fun _ => some contents
  createErr := fun _ => false
  createErrText := fun _ => ""
  encodeErr := fun _ => false
  closeErr := fun _ => false

/-- A naming function for examples: `r` dashes for shard `r`. -/
def dashName (_jobName : GoString) (_mapTask : Int) (r : Int) : GoString :=
  List.replicate r.toNat 45

/-- A map function for examples: whatever the input, the three records
`(a,1)`, `(b,1)`, `(a,1)`. -/
def threeWords (_filename _contents : GoString) : List KeyValue :=
  [⟨[97], [49]⟩, ⟨[98], [49]⟩, ⟨[97], [49]⟩]

/-- An operating system in which the input is read and the shard files are
created, while every `Encode` and every `Close` returns an error. -/
def OS.writesFail (contents : GoString) : OS where
  openErr := fun _ => false
  readAll := fun _ => some contents
  createErr := fun _ => false
  createErrText := fun _ => ""
  encodeErr := fun _ => true
  closeErr := fun _ => true

/-- An operating system in which `os.Open` fails. -/
def OS.openFails : OS where
  openErr := fun _ => true
  readAll := fun _ => none
  createErr := fun _ => false
  createErrText := fun _ => ""
  encodeErr := fun _ => false
  closeErr := fun _ => false

/-- An operating system in which the input is read and `os.Create` fails
with the text `permission denied`. -/
def OS.createFails (contents : GoString) : OS where
  openErr := fun _ => false
  readAll := fun _ => some contents
  createErr := fun _ => true
  createErrText := fun _ => "permission denied"
  encodeErr := fun _ => false
  closeErr := fun _ => false

section names

variable (reduceName : GoString → Int → Int → GoString)

/-- The name of the shard file of index `r`. -/
def shardName (jobName : GoString) (mapTask : Int) (r : Nat) : GoString :=
  reduceName jobName mapTask (r : Int)

/-- The slice `files` once the creation loop has run to its end. -/
def shardFiles (jobName : GoString) (mapTask : Int) (nReduce : Int) : List GoString :=
  (List.range nReduce.toNat).map (shardName reduceName jobName mapTask)

/-- The events of the creation loop when no `os.Create` fails. -/
def createEvents (jobName : GoString) (mapTask : Int) (nReduce : Int) : List Event :=
  (List.range nReduce.toNat).map
    (fun r => Event.create (shardName reduceName jobName mapTask r) true)

end names

/-- The conversion `byte(n)` of Go: the low eight bits. -/
def byte (n : Nat) : Byte := ⟨n % 256, Nat.mod_lt _ (by decide)⟩

/-! ## `unicode/utf8` and `unicode/utf16` (Go standard library)

Runes are `int32` in Go; every rune that occurs below is non-negative and is
a `Nat` here. -/

namespace utf8

/-- Constant `RuneError`, the replacement character U+FFFD. -/
def RuneError : Nat := 0xFFFD

/-- Constant `RuneSelf`: bytes below it are single-byte runes. -/
def RuneSelf : Nat := 0x80

/-- Constant `MaxRune`. -/
def MaxRune : Nat := 0x10FFFF

/-- The table `first`: information about the first byte of an encoding
(`as = 0xF0` ASCII, `xx = 0xF1` invalid, else accept-range index in the high
nibble and size in the low one). -/
def first (b : Nat) : Nat :=
  if b < 0x80 then 0xF0
  else if b < 0xC2 then 0xF1
  else if b < 0xE0 then 0x02
  else if b = 0xE0 then 0x13
  else if b < 0xED then 0x03
  else if b = 0xED then 0x23
  else if b < 0xF0 then 0x03
  else if b = 0xF0 then 0x34
  else if b < 0xF4 then 0x04
  else if b = 0xF4 then 0x44
  else 0xF1

/-- The table `acceptRanges`: the bounds `lo`, `hi` of the second byte. -/
def acceptRanges (i : Nat) : Nat × Nat :=
  match i with
  | 0 => (0x80, 0xBF)
  | 1 => (0xA0, 0xBF)
  | 2 => (0x80, 0x9F)
  | 3 => (0x90, 0xBF)
  | 4 => (0x80, 0x8F)
  | _ => (0, 0)

/-- The functions `DecodeRune` and `DecodeRuneInString`: the first rune of `p`
and its width in bytes; `(RuneError, 1)` for an invalid encoding. -/
def DecodeRune (p : List Byte) : Nat × Nat :=
  let n := p.length
  if n < 1 then (RuneError, 0)
  else
    let p0 := (p.getD 0 0).val
    let x := first p0
    if x ≥ 0xF0 then
      -- `mask := rune(x) << 31 >> 31` is all ones exactly when `x` is odd (`xx`)
      (if x % 2 = 1 then RuneError else p0, 1)
    else
      let sz := x &&& 7
      let accept := acceptRanges (x >>> 4)
      if n < sz then (RuneError, 1)
      else
        let b1 := (p.getD 1 0).val
        if b1 < accept.1 ∨ accept.2 < b1 then (RuneError, 1)
        else if sz ≤ 2 then (((p0 &&& 0x1F) <<< 6) ||| (b1 &&& 0x3F), 2)
        else
          let b2 := (p.getD 2 0).val
          if b2 < 0x80 ∨ 0xBF < b2 then (RuneError, 1)
          else if sz ≤ 3 then
            (((p0 &&& 0x0F) <<< 12) ||| ((b1 &&& 0x3F) <<< 6) ||| (b2 &&& 0x3F), 3)
          else
            let b3 := (p.getD 3 0).val
            if b3 < 0x80 ∨ 0xBF < b3 then (RuneError, 1)
            else
              (((p0 &&& 0x07) <<< 18) ||| ((b1 &&& 0x3F) <<< 12) |||
                ((b2 &&& 0x3F) <<< 6) ||| (b3 &&& 0x3F), 4)

/-- The function `EncodeRune`: the UTF-8 encoding of the rune `r`; a rune
out of range or a surrogate is encoded as `RuneError`. -/
def EncodeRune (r : Nat) : List Byte :=
  if r ≤ 0x7F then [byte r]
  else if r ≤ 0x7FF then
    [byte (0xC0 ||| (byte (r >>> 6)).val), byte (0x80 ||| ((byte r).val &&& 0x3F))]
  else
    let r := if r > MaxRune ∨ (0xD800 ≤ r ∧ r ≤ 0xDFFF) then RuneError else r
    if r ≤ 0xFFFF then
      [byte (0xE0 ||| (byte (r >>> 12)).val), byte (0x80 ||| ((byte (r >>> 6)).val &&& 0x3F)),
        byte (0x80 ||| ((byte r).val &&& 0x3F))]
    else
      [byte (0xF0 ||| (byte (r >>> 18)).val), byte (0x80 ||| ((byte (r >>> 12)).val &&& 0x3F)),
        byte (0x80 ||| ((byte (r >>> 6)).val &&& 0x3F)),
        byte (0x80 ||| ((byte r).val &&& 0x3F))]

/-- One iteration of the loop of `ValidString`: the number of bytes of the
valid encoding at the head of `s`, or `none` when `ValidString` returns false. -/
def validStep (s : List Byte) : Option Nat :=
  let si := (s.getD 0 0).val
  if si < RuneSelf then some 1
  else
    let x := first si
    if x = 0xF1 then none
    else
      let size := x &&& 7
      if size > s.length then none
      else
        let accept := acceptRanges (x >>> 4)
        let c1 := (s.getD 1 0).val
        if c1 < accept.1 ∨ accept.2 < c1 then none
        else if size = 2 then some size
        else
          let c2 := (s.getD 2 0).val
          if c2 < 0x80 ∨ 0xBF < c2 then none
          else if size = 3 then some size
          else
            let c3 := (s.getD 3 0).val
            if c3 < 0x80 ∨ 0xBF < c3 then none
            else some size

/-- The loop of `ValidString`, with `fuel` bounding the number of iterations. -/
def validLoop : Nat → List Byte → Bool
  | _, [] => true
  | 0, _ :: _ => false
  | fuel + 1, b :: rest =>
    match validStep (b :: rest) with
    | none => false
    | some size => validLoop fuel ((b :: rest).drop size)

/-- The function `ValidString`: whether `s` is valid UTF-8. -/
def ValidString (s : GoString) : Bool := validLoop s.length s

end utf8

namespace utf16

/-- The function `IsSurrogate`. -/
def IsSurrogate (r : Nat) : Bool := decide (0xd800 ≤ r ∧ r < 0xe000)

/-- The function `DecodeRune` of `unicode/utf16`: the rune of a surrogate
pair, or U+FFFD when the pair is not valid; `none` stands for the rune `-1`. -/
def DecodeRune (r1 : Nat) (r2 : Option Nat) : Nat :=
  match r2 with
  | none => 0xFFFD
  | some r2 =>
    if 0xd800 ≤ r1 ∧ r1 < 0xdc00 ∧ 0xdc00 ≤ r2 ∧ r2 < 0xe000 then
      (((r1 - 0xd800) <<< 10) ||| (r2 - 0xdc00)) + 0x10000
    else 0xFFFD

end utf16

/-! ## `encoding/json` (Go standard library), for the type `KeyValue` -/

namespace json

/-- The string `hex = "0123456789abcdef"`, indexed. -/
def hex (i : Nat) : Byte :=
  ([48, 49, 50, 51, 52, 53, 54, 55, 56, 57, 97, 98, 99, 100, 101, 102] : List Byte).getD i 0

/-- The table `htmlSafeSet`: the ASCII bytes written without an escape when
`escapeHTML` is set, that is all from the space on except the double quote,
the ampersand, `<`, `>` and the backslash. -/
def htmlSafeSet (b : Nat) : Bool :=
  decide (0x20 ≤ b ∧ b < 0x80 ∧ b ≠ 34 ∧ b ≠ 38 ∧ b ≠ 60 ∧ b ≠ 62 ∧ b ≠ 92)

/-- One iteration of the loop of `(*encodeState).string` with `escapeHTML`
set (the default of `NewEncoder`), on the rest `s` of the string: the bytes it
writes and the rest left for the next iteration.  Bytes that need no escape
are written unchanged. -/
def stringStep (s : List Byte) : List Byte × List Byte :=
  match s with
  | [] => ([], [])
  | b :: rest =>
    if b.val < utf8.RuneSelf then
      if htmlSafeSet b.val then ([b], rest)
      else if b.val = 92 ∨ b.val = 34 then ([92, b], rest)
      else if b.val = 10 then ([92, 110], rest)
      else if b.val = 13 then ([92, 114], rest)
      else if b.val = 9 then ([92, 116], rest)
      else ([92, 117, 48, 48, hex (b.val >>> 4), hex (b.val &&& 0xF)], rest)
    else
      let d := utf8.DecodeRune s
      if d.1 = utf8.RuneError ∧ d.2 = 1 then
        ([92, 117, 102, 102, 102, 100], s.drop d.2)
      else if d.1 = 0x2028 ∨ d.1 = 0x2029 then
        ([92, 117, 50, 48, 50, hex (d.1 &&& 0xF)], s.drop d.2)
      else (s.take d.2, s.drop d.2)

/-- The loop of `(*encodeState).string`, with `fuel` bounding the number of
iterations. -/
def stringLoop : Nat → List Byte → List Byte
  | _, [] => []
  | 0, _ :: _ => []
  | fuel + 1, b :: rest =>
    (stringStep (b :: rest)).1 ++ stringLoop fuel (stringStep (b :: rest)).2

/-- The method `(*encodeState).string`: the JSON string literal of `s`. -/
def encodeString (s : GoString) : List Byte :=
  [34] ++ stringLoop s.length s ++ [34]

/-- The bytes `(*Encoder).Encode(kv)` writes for a `KeyValue`: the object
with the members `Key` and `Value`, then a newline. -/
def Encode (kv : KeyValue) : List Byte :=
  [123] ++ [34, 75, 101, 121, 34] ++ [58] ++ encodeString kv.Key ++ [44] ++
    [34, 86, 97, 108, 117, 101, 34] ++ [58] ++ encodeString kv.Value ++ [125] ++ [10]

/-- The value of a hexadecimal digit, as computed in `getu4`. -/
def hexValue (c : Nat) : Option Nat :=
  if 48 ≤ c ∧ c ≤ 57 then some (c - 48)
  else if 97 ≤ c ∧ c ≤ 102 then some (c - 97 + 10)
  else if 65 ≤ c ∧ c ≤ 70 then some (c - 65 + 10)
  else none

/-- The function `getu4`: the rune of the escape `\uXXXX` at the head of
`s`, or `none` (the rune `-1` of the source). -/
def getu4 (s : List Byte) : Option Nat :=
  match s with
  | a :: b :: c1 :: c2 :: c3 :: c4 :: _ =>
    if a.val ≠ 92 ∨ b.val ≠ 117 then none
    else
      match hexValue c1.val, hexValue c2.val, hexValue c3.val, hexValue c4.val with
      | some d1, some d2, some d3, some d4 => some (((d1 * 16 + d2) * 16 + d3) * 16 + d4)
      | _, _, _, _ => none
  | _ => none

/-- One iteration of the second loop of `unquoteBytes`: the bytes it
appends and the rest of the input, or `none` when `unquoteBytes` fails. -/
def unquoteStep (s : List Byte) : Option (List Byte × List Byte) :=
  match s with
  | [] => some ([], [])
  | c :: rest =>
    if c.val = 92 then
      match rest with
      | [] => none
      | e :: rest2 =>
        if e.val = 34 ∨ e.val = 92 ∨ e.val = 47 ∨ e.val = 39 then some ([e], rest2)
        else if e.val = 98 then some ([8], rest2)
        else if e.val = 102 then some ([12], rest2)
        else if e.val = 110 then some ([10], rest2)
        else if e.val = 114 then some ([13], rest2)
        else if e.val = 116 then some ([9], rest2)
        else if e.val = 117 then
          match getu4 s with
          | none => none
          | some rr =>
            if utf16.IsSurrogate rr then
              let rr1 := getu4 (s.drop 6)
              let dec := utf16.DecodeRune rr rr1
              if dec ≠ 0xFFFD then some (utf8.EncodeRune dec, s.drop 12)
              else some (utf8.EncodeRune 0xFFFD, s.drop 6)
            else some (utf8.EncodeRune rr, s.drop 6)
        else none
    else if c.val = 34 ∨ c.val < 32 then none
    else if c.val < utf8.RuneSelf then some ([c], rest)
    else
      let d := utf8.DecodeRune s
      some (utf8.EncodeRune d.1, s.drop d.2)

/-- The second loop of `unquoteBytes`, with `fuel` bounding the number of
iterations. -/
def unquoteLoop : Nat → List Byte → Option (List Byte)
  | _, [] => some []
  | 0, _ :: _ => none
  | fuel + 1, c :: rest =>
    match unquoteStep (c :: rest) with
    | none => none
    | some (out, rest2) =>
      match unquoteLoop fuel rest2 with
      | none => none
      | some t => some (out ++ t)

/-- One iteration of the first loop of `unquoteBytes`, which looks for
the first byte that needs work: the number of bytes to skip, or `none` at a
`break`. -/
def plainStep (s : List Byte) : Option Nat :=
  match s with
  | [] => none
  | c :: _ =>
    if c.val = 92 ∨ c.val = 34 ∨ c.val < 32 then none
    else if c.val < utf8.RuneSelf then some 1
    else
      let d := utf8.DecodeRune s
      if d.1 = utf8.RuneError ∧ d.2 = 1 then none else some d.2

/-- The first loop of `unquoteBytes`: the index `r` at which it stops. -/
def plainLoop : Nat → List Byte → Nat
  | _, [] => 0
  | 0, _ :: _ => 0
  | fuel + 1, c :: rest =>
    match plainStep (c :: rest) with
    | none => 0
    | some size => size + plainLoop fuel ((c :: rest).drop size)

/-- The function `unquoteBytes`: the string a JSON string literal (with
its quotes) stands for, or `none` when it is malformed. -/
def unquoteBytes (s : List Byte) : Option (List Byte) :=
  if s.length < 2 ∨ (s.getD 0 0).val ≠ 34 ∨ (s.getD (s.length - 1) 0).val ≠ 34 then none
  else
    let s := (s.drop 1).take (s.length - 2)
    let r := plainLoop s.length s
    if r = s.length then some s
    else
      match unquoteLoop s.length (s.drop r) with
      | none => none
      | some t => some (s.take r ++ t)

/-! ### Reading the stream back

Modelled from the spec: the reading side is `doReduce` of `common_reduce.go`,
which is not among the sources; it decodes each shard file as a stream of JSON
values with a `json.Decoder`, one `Decode(&kv)` per record. -/

/-- The states of the scanner of `encoding/json` inside a string literal. -/
inductive StringState where
  | inString
  | inStringEsc
  | inStringEscU
  | inStringEscU1
  | inStringEscU12
  | inStringEscU123
  deriving DecidableEq

/-- The test for a hexadecimal digit in the scanner. -/
def isHexDigit (c : Nat) : Bool :=
  decide ((48 ≤ c ∧ c ≤ 57) ∨ (97 ≤ c ∧ c ≤ 102) ∨ (65 ≤ c ∧ c ≤ 70))

/-- The step functions `stateInString`, `stateInStringEsc`,
`stateInStringEscU` .. `stateInStringEscU123` of the scanner on the byte `c`:
`none` for a syntax error, `some none` when `c` is the closing quote, else the
next state. -/
def stringStateStep (st : StringState) (c : Nat) : Option (Option StringState) :=
  match st with
  | StringState.inString =>
    if c = 34 then some none
    else if c = 92 then some (some StringState.inStringEsc)
    else if c < 0x20 then none
    else some (some StringState.inString)
  | StringState.inStringEsc =>
    if c = 98 ∨ c = 102 ∨ c = 110 ∨ c = 114 ∨ c = 116 ∨ c = 92 ∨ c = 47 ∨ c = 34 then
      some (some StringState.inString)
    else if c = 117 then some (some StringState.inStringEscU)
    else none
  | StringState.inStringEscU =>
    if isHexDigit c then some (some StringState.inStringEscU1) else none
  | StringState.inStringEscU1 =>
    if isHexDigit c then some (some StringState.inStringEscU12) else none
  | StringState.inStringEscU12 =>
    if isHexDigit c then some (some StringState.inStringEscU123) else none
  | StringState.inStringEscU123 =>
    if isHexDigit c then some (some StringState.inString) else none

/-- Modelled from the spec: the scanner run over a string literal whose opening
quote has been read; the literal up to its closing quote, and the input after
it. -/
def scanLiteral : StringState → List Byte → Option (List Byte × List Byte)
  | _, [] => none
  | st, c :: rest =>
    match stringStateStep st c.val with
    | none => none
    | some none => some ([c], rest)
    | some (some st2) =>
      match scanLiteral st2 rest with
      | none => none
      | some (lit, rest2) => some (c :: lit, rest2)

/-- The function `isSpace` of the scanner. -/
def isSpace (c : Nat) : Bool := decide (c = 32 ∨ c = 9 ∨ c = 13 ∨ c = 10)

/-- Modelled from the spec: skipping the white space before a token. -/
def skipSpace : List Byte → List Byte
  | [] => []
  | c :: rest => if isSpace c.val then skipSpace rest else c :: rest

/-- Modelled from the spec: reading one string literal at the head of `s`: the
string it stands for (`unquoteBytes` of the scanned literal) and the input
after it. -/
def readString (s : List Byte) : Option (List Byte × List Byte) :=
  match s with
  | [] => none
  | q :: rest =>
    if q.val ≠ 34 then none
    else
      match scanLiteral StringState.inString rest with
      | none => none
      | some (lit, rest2) =>
        match unquoteBytes (q :: lit) with
        | none => none
        | some str => some (str, rest2)

/-- Modelled from the spec: storing the string `val` in the field of `kv`
named `name`.  Only the exact names `Key` and `Value` are in the model (`none`
otherwise). -/
def setField (kv : KeyValue) (name val : List Byte) : Option KeyValue :=
  if name = [75, 101, 121] then some { kv with Key := val }
  else if name = [86, 97, 108, 117, 101] then some { kv with Value := val }
  else none

/-- Modelled from the spec: decoding the members of an object into `kv`, from
the opening quote of a member name to the closing brace.  Only members whose
value is a string are in the model. -/
def members : Nat → KeyValue → List Byte → Option (KeyValue × List Byte)
  | 0, _, _ => none
  | fuel + 1, kv, s =>
    match readString s with
    | none => none
    | some (name, s1) =>
      match skipSpace s1 with
      | [] => none
      | colon :: s2 =>
        if colon.val ≠ 58 then none
        else
          match readString (skipSpace s2) with
          | none => none
          | some (val, s3) =>
            match setField kv name val with
            | none => none
            | some kv2 =>
              match skipSpace s3 with
              | [] => none
              | d :: s4 =>
                if d.val = 44 then members fuel kv2 (skipSpace s4)
                else if d.val = 125 then some (kv2, s4)
                else none

/-- Modelled from the spec: one call `Decode(&kv)` of a `json.Decoder` on the
stream `s`, with `kv` a fresh `KeyValue`: the record decoded and the rest of
the stream, or `none` at the end of the stream or on an error. -/
def Decode (s : List Byte) : Option (KeyValue × List Byte) :=
  match skipSpace s with
  | [] => none
  | c :: s1 =>
    if c.val ≠ 123 then none
    else
      match skipSpace s1 with
      | [] => none
      | d :: s2 =>
        if d.val = 125 then some (⟨[], []⟩, s2)
        else members s.length ⟨[], []⟩ (d :: s2)

/-- Modelled from the spec: the loop that decodes records until `Decode`
returns an error (the end of the stream included), with `fuel` bounding the
number of iterations. -/
def decodeLoop : Nat → List Byte → List KeyValue
  | 0, _ => []
  | fuel + 1, s =>
    match Decode s with
    | none => []
    | some (kv, rest) => kv :: decodeLoop fuel rest

/-- Modelled from the spec: the records read back from a shard file. -/
def readRecords (s : List Byte) : List KeyValue := decodeLoop s.length s

/-- The contents of a shard file: the bytes of the `Encode` calls, in order. -/
def fileContents (records : List KeyValue) : List Byte :=
  (records.map Encode).flatten

/-- The description of a string literal body `e` that stands for the
string `d`, piece by piece: an ASCII byte written as it is, one of the two-byte
escapes, an escape `\uXXXX` of a rune that is not a surrogate, or a multi-byte
UTF-8 encoding written as it is. -/
inductive Escaped : List Byte → List Byte → Prop where
  | nil : Escaped [] []
  | ascii (b : Byte) (e d : List Byte) (h1 : 0x20 ≤ b.val) (h2 : b.val < 0x80)
      (h3 : b.val ≠ 34) (h4 : b.val ≠ 92) : Escaped e d → Escaped (b :: e) (b :: d)
  | short (c b : Byte) (e d : List Byte)
      (h : (c.val = 34 ∧ b.val = 34) ∨ (c.val = 92 ∧ b.val = 92) ∨ (c.val = 110 ∧ b.val = 10) ∨
        (c.val = 114 ∧ b.val = 13) ∨ (c.val = 116 ∧ b.val = 9)) :
      Escaped e d → Escaped (92 :: c :: e) (b :: d)
  | unicode (h1 h2 h3 h4 : Byte) (r : Nat) (e d : List Byte)
      (hr : getu4 [92, 117, h1, h2, h3, h4] = some r) (hs : utf16.IsSurrogate r = false) :
      Escaped e d → Escaped (92 :: 117 :: h1 :: h2 :: h3 :: h4 :: e) (utf8.EncodeRune r ++ d)
  | raw (l : List Byte) (c : Nat) (e d : List Byte) (h1 : 2 ≤ l.length)
      (h2 : ∀ b ∈ l, 0x80 ≤ b.val)
      (h3 : ∀ t, utf8.DecodeRune (l ++ t) = (c, l.length)) (h4 : utf8.EncodeRune c = l) :
      Escaped e d → Escaped (l ++ e) (l ++ d)

end json

/-- A record for examples whose key is the single byte `0xff`, which is
not valid UTF-8. -/
def badKey : KeyValue := ⟨[0xff], [49]⟩

/-- A record for examples whose key is the single byte `0xfe`, which is
not valid UTF-8 either. -/
def badKey2 : KeyValue := ⟨[0xfe], [49]⟩

/-- A record for examples, valid UTF-8: the key holds `a`, a newline, a
double quote, a backslash, the byte 0, `<` and a three-byte character; the
value is one four-byte character. -/
def oddRecord : KeyValue :=
  ⟨[97, 10, 34, 92, 0, 60, 0xe4, 0xb8, 0xad], [0xf0, 0x9f, 0x98, 0x80]⟩

/-! ## The hash -/

theorem fnv_Write_eq_foldl (h : Nat) (data : List Byte) :
    fnv.Write h data = data.foldl (fun h b => ((h ^^^ b.val) * 16777619) % 2 ^ 32) h := by
  induction data generalizing h with
  | nil => rfl
  | cons c data ih => simp only [fnv.Write, List.foldl_cons, ih, fnv.prime32]

theorem ihash_eq_land (s : GoString) : ihash s = ((fnv1a32 s &&& 0x7fffffff : Nat) : Int) := by
  simp only [ihash, fnv.Sum32, fnv.New32a, fnv.offset32, fnv1a32, fnv_Write_eq_foldl]

theorem land_mask31 (x : Nat) : x &&& 0x7fffffff = x % 2 ^ 31 :=
  Nat.and_pow_two_sub_one_eq_mod x 31

theorem ihash_nonneg (s : GoString) : 0 ≤ ihash s := by
  rw [ihash_eq_land]; exact Int.natCast_nonneg _

theorem ihash_lt (s : GoString) : ihash s < 2147483648 := by
  rw [ihash_eq_land, land_mask31]
  have : fnv1a32 s % 2 ^ 31 < 2 ^ 31 := Nat.mod_lt _ (by norm_num)
  omega

theorem reduceID_nonneg (key : GoString) (nReduce : Int) : 0 ≤ reduceID key nReduce :=
  Int.tmod_nonneg _ (ihash_nonneg key)

theorem reduceID_lt (key : GoString) {nReduce : Int} (hn : 1 ≤ nReduce) :
    reduceID key nReduce < nReduce :=
  Int.tmod_lt_of_pos _ (by omega)

theorem reduceID_eq_emod (key : GoString) {nReduce : Int} (hn : 1 ≤ nReduce) :
    reduceID key nReduce = ihash key % nReduce := by
  unfold reduceID
  exact Int.tmod_eq_emod (ihash_nonneg key) (by omega)

theorem reduceID_toNat_lt (key : GoString) {nReduce : Int} (hn : 1 ≤ nReduce) :
    (reduceID key nReduce).toNat < nReduce.toNat := by
  have h1 := reduceID_nonneg key nReduce
  have h2 := reduceID_lt key hn
  omega

/-! ## The loops of `doMap` -/

section loops

variable (reduceName : GoString → Int → Int → GoString) (os : OS)

theorem createLoop_some (jobName : GoString) (mapTask : Int) :
    ∀ (rs : List Nat) (files fs : List GoString) (evs : List Event),
      createLoop reduceName os jobName mapTask rs files = (Except.ok fs, evs) →
      fs = files ++ rs.map (shardName reduceName jobName mapTask) ∧
      evs = rs.map (fun r => Event.create (shardName reduceName jobName mapTask r) true) ∧
      ∀ r ∈ rs, os.createErr (shardName reduceName jobName mapTask r) = false := by
  intro rs
  induction rs with
  | nil =>
    intro files fs evs h
    simp only [createLoop, Prod.mk.injEq, Except.ok.injEq] at h
    simp [h.1.symm, h.2.symm]
  | cons r rs ih =>
    intro files fs evs h
    simp only [createLoop] at h
    by_cases hc : os.createErr (reduceName jobName mapTask (r : Int)) = true
    · simp [hc] at h
    · simp only [hc, Bool.false_eq_true, if_false, Prod.mk.injEq] at h
      obtain ⟨h1, h2⟩ := h
      obtain ⟨e1, e2, e3⟩ := ih (files ++ [reduceName jobName mapTask (r : Int)]) fs
        (createLoop reduceName os jobName mapTask rs
          (files ++ [reduceName jobName mapTask (r : Int)])).2 (Prod.ext h1 rfl)
      refine ⟨?_, ?_, ?_⟩
      · simp [e1, shardName]
      · rw [← h2, e2]; simp [shardName]
      · intro r' hr'
        rcases List.mem_cons.mp hr' with rfl | hr'
        · simpa [shardName] using hc
        · exact e3 r' hr'

theorem createLoop_ok (jobName : GoString) (mapTask : Int) :
    ∀ (rs : List Nat) (files : List GoString),
      (∀ r ∈ rs, os.createErr (shardName reduceName jobName mapTask r) = false) →
      createLoop reduceName os jobName mapTask rs files =
        (Except.ok (files ++ rs.map (shardName reduceName jobName mapTask)),
          rs.map (fun r => Event.create (shardName reduceName jobName mapTask r) true)) := by
  intro rs
  induction rs with
  | nil => intro files _; simp [createLoop]
  | cons r rs ih =>
    intro files h
    have hr : os.createErr (reduceName jobName mapTask (r : Int)) = false := by
      simpa [shardName] using h r (List.mem_cons_self _ _)
    simp only [createLoop, hr, Bool.false_eq_true, if_false]
    rw [ih _ (fun r' hr' => h r' (List.mem_cons_of_mem _ hr'))]
    simp [shardName]

theorem createLoop_fatal (jobName : GoString) (mapTask : Int) :
    ∀ (rs : List Nat) (files : List GoString) (msg : String) (evs : List Event),
      createLoop reduceName os jobName mapTask rs files = (Except.error msg, evs) →
      ∃ r ∈ rs, os.createErr (shardName reduceName jobName mapTask r) = true := by
  intro rs
  induction rs with
  | nil => intro files msg evs h; simp [createLoop] at h
  | cons r rs ih =>
    intro files msg evs h
    by_cases hc : os.createErr (reduceName jobName mapTask (r : Int)) = true
    · exact ⟨r, List.mem_cons_self _ _, by simpa [shardName] using hc⟩
    · simp only [createLoop, hc, Bool.false_eq_true, if_false, Prod.mk.injEq] at h
      obtain ⟨r', hr', h'⟩ := ih _ _ _ (Prod.ext h.1 rfl)
      exact ⟨r', List.mem_cons_of_mem _ hr', h'⟩

/-- One iteration of the routing loop when `enc` has `nReduce ≥ 1` entries. -/
theorem encodeLoop_cons {nReduce : Int} {enc : List GoString} (hn : 1 ≤ nReduce)
    (hlen : enc.length = nReduce.toNat) (kv : KeyValue) (rest : List KeyValue) (i : Nat) :
    ∃ file, enc.get? (reduceID kv.Key nReduce).toNat = some file ∧
      encodeLoop os nReduce enc (kv :: rest) i =
        ((encodeLoop os nReduce enc rest (i + 1)).1,
          Event.encode (reduceID kv.Key nReduce).toNat file kv (!os.encodeErr i) ::
            (encodeLoop os nReduce enc rest (i + 1)).2) := by
  have h0 : nReduce ≠ 0 := by omega
  have h1 : ¬ reduceID kv.Key nReduce < 0 := not_lt.mpr (reduceID_nonneg _ _)
  have h2 : (reduceID kv.Key nReduce).toNat < enc.length := by
    rw [hlen]; exact reduceID_toNat_lt _ hn
  refine ⟨enc.get ⟨_, h2⟩, List.get?_eq_get h2, ?_⟩
  unfold reduceID at h1 h2 ⊢
  simp only [encodeLoop, h0, if_false, h1, List.get?_eq_get h2]

theorem encodeLoop_no_panic {nReduce : Int} {enc : List GoString} (hn : 1 ≤ nReduce)
    (hlen : enc.length = nReduce.toNat) :
    ∀ (l : List KeyValue) (i : Nat), (encodeLoop os nReduce enc l i).1 = none := by
  intro l
  induction l with
  | nil => intro i; rfl
  | cons kv rest ih =>
    intro i
    obtain ⟨file, _, h⟩ := encodeLoop_cons os hn hlen kv rest i
    rw [h]; exact ih (i + 1)

end loops

section run

variable (reduceName : GoString → Int → Int → GoString) (os : OS)

theorem shardFiles_length (jobName : GoString) (mapTask : Int) (nReduce : Int) :
    (shardFiles reduceName jobName mapTask nReduce).length = nReduce.toNat := by
  simp [shardFiles]

theorem shardFiles_get? (jobName : GoString) (mapTask : Int) (nReduce : Int) (r : Nat)
    (hr : r < nReduce.toNat) :
    (shardFiles reduceName jobName mapTask nReduce).get? r =
      some (shardName reduceName jobName mapTask r) := by
  simp [shardFiles, List.getElem?_map, List.getElem?_range hr]

theorem makeslice_iff (cap : Int) :
    makesliceCapOutOfRange cap = false ↔ 0 ≤ cap ∧ cap ≤ 2 ^ 45 := by
  simp only [makesliceCapOutOfRange, maxAlloc, ptrSize, decide_eq_false_iff_not]
  norm_num
  omega

/-- A run in which the input is read and no `os.Create` fails, for
`1 ≤ nReduce ≤ 2 ^ 45`. -/
theorem doMap_run (jobName : GoString) (mapTask : Int) (inFile : GoString) (nReduce : Int)
    (mapF : GoString → GoString → List KeyValue) (fileContent : GoString)
    (hn : 1 ≤ nReduce) (hmax : nReduce ≤ 2 ^ 45) (hopen : os.openErr inFile = false)
    (hread : os.readAll inFile = some fileContent)
    (hcreate : ∀ r < nReduce.toNat,
      os.createErr (shardName reduceName jobName mapTask r) = false) :
    doMap reduceName os jobName mapTask inFile nReduce mapF =
      (Outcome.returned,
        [Event.openInput inFile true, Event.readInput true,
          Event.callMapF inFile fileContent] ++
        createEvents reduceName jobName mapTask nReduce ++
        (encodeLoop os nReduce (shardFiles reduceName jobName mapTask nReduce)
          (mapF inFile fileContent) 0).2 ++
        closeLoop os (shardFiles reduceName jobName mapTask nReduce) 0 ++
        [Event.closeInput]) := by
  have hneg : makesliceCapOutOfRange nReduce = false :=
    (makeslice_iff nReduce).mpr ⟨by omega, hmax⟩
  have hc := createLoop_ok reduceName os jobName mapTask (List.range nReduce.toNat) []
    (fun r hr => hcreate r (List.mem_range.mp hr))
  have hp := encodeLoop_no_panic os hn (shardFiles_length reduceName jobName mapTask nReduce)
    (mapF inFile fileContent) 0
  simp only [List.nil_append] at hc
  unfold doMap
  simp only [hopen, Bool.false_eq_true, if_false, hread, hneg, hc]
  rw [← Prod.mk.eta (p := encodeLoop os nReduce _ (mapF inFile fileContent) 0)]
  simp only [shardFiles] at hp
  simp only [hp, shardFiles, createEvents]

/-- What a normal return of `doMap` tells about the operating system. -/
theorem doMap_returned (jobName : GoString) (mapTask : Int) (inFile : GoString) (nReduce : Int)
    (mapF : GoString → GoString → List KeyValue)
    (hret : (doMap reduceName os jobName mapTask inFile nReduce mapF).1 = Outcome.returned) :
    os.openErr inFile = false ∧ (∃ fileContent, os.readAll inFile = some fileContent) ∧
      0 ≤ nReduce ∧ nReduce ≤ 2 ^ 45 ∧
      ∀ r < nReduce.toNat, os.createErr (shardName reduceName jobName mapTask r) = false := by
  unfold doMap at hret
  by_cases hopen : os.openErr inFile = true
  · simp [hopen] at hret
  · simp only [hopen, Bool.false_eq_true, if_false] at hret
    cases hread : os.readAll inFile with
    | none => simp [hread] at hret
    | some fileContent =>
      simp only [hread] at hret
      by_cases hneg : makesliceCapOutOfRange nReduce = true
      · simp [hneg] at hret
      · simp only [hneg, Bool.false_eq_true, if_false] at hret
        have hcap := (makeslice_iff nReduce).mp (by simpa using hneg)
        cases hc : createLoop reduceName os jobName mapTask (List.range nReduce.toNat) [] with
        | mk res evs =>
          cases res with
          | error msg => simp [hc] at hret
          | ok files =>
            obtain ⟨_, _, h3⟩ := createLoop_some reduceName os jobName mapTask _ _ _ _ hc
            exact ⟨by simpa using hopen, ⟨fileContent, rfl⟩, hcap.1, hcap.2,
              fun r hr => h3 r (List.mem_range.mpr hr)⟩

end run

section traces

variable (reduceName : GoString → Int → Int → GoString) (os : OS)

theorem createLoop_mem (jobName : GoString) (mapTask : Int) :
    ∀ (rs : List Nat) (files : List GoString) (e : Event),
      e ∈ (createLoop reduceName os jobName mapTask rs files).2 →
      ∃ name ok, e = Event.create name ok := by
  intro rs
  induction rs with
  | nil => intro files e h; simp [createLoop] at h
  | cons r rs ih =>
    intro files e h
    simp only [createLoop] at h
    split at h
    · exact ⟨_, _, List.mem_singleton.mp h⟩
    · rcases List.mem_cons.mp h with h | h
      · exact ⟨_, _, h⟩
      · exact ih _ e h

theorem closeLoop_mem : ∀ (files : List GoString) (r : Nat) (e : Event),
    e ∈ closeLoop os files r → ∃ s f ok, e = Event.close s f ok := by
  intro files
  induction files with
  | nil => intro r e h; simp [closeLoop] at h
  | cons f rest ih =>
    intro r e h
    rcases List.mem_cons.mp h with h | h
    · exact ⟨_, _, _, h⟩
    · exact ih _ e h

/-- Every event of the routing loop is an `Encode` on the encoder whose
index is `ihash(kv.Key) % nReduce`, for a record of the list. -/
theorem encodeLoop_mem (nReduce : Int) (enc : List GoString) :
    ∀ (l : List KeyValue) (i : Nat) (e : Event), e ∈ (encodeLoop os nReduce enc l i).2 →
      ∃ kv ∈ l, ∃ file ok, nReduce ≠ 0 ∧
        enc.get? (reduceID kv.Key nReduce).toNat = some file ∧
        e = Event.encode (reduceID kv.Key nReduce).toNat file kv ok := by
  intro l
  induction l with
  | nil => intro i e h; simp [encodeLoop] at h
  | cons kv rest ih =>
    intro i e h
    simp only [encodeLoop] at h
    split at h
    · simp at h
    · rename_i h0
      split at h
      · simp at h
      · split at h
        · simp at h
        · rename_i file hfile
          rcases List.mem_cons.mp h with h | h
          · exact ⟨kv, List.mem_cons_self _ _, file, _, h0, hfile, h⟩
          · obtain ⟨kv', hkv', rest'⟩ := ih _ e h
            exact ⟨kv', List.mem_cons_of_mem _ hkv', rest'⟩

/-- The records passed to `Encode` by the routing loop are the records of
the list, in order, when the loop does not panic. -/
theorem encodeLoop_encodedRecords {nReduce : Int} {enc : List GoString} (hn : 1 ≤ nReduce)
    (hlen : enc.length = nReduce.toNat) :
    ∀ (l : List KeyValue) (i : Nat), encodedRecords (encodeLoop os nReduce enc l i).2 = l := by
  intro l
  induction l with
  | nil => intro i; rfl
  | cons kv rest ih =>
    intro i
    obtain ⟨file, _, h⟩ := encodeLoop_cons os hn hlen kv rest i
    rw [h]
    have := ih (i + 1)
    simp only [encodedRecords] at this ⊢
    simp only [List.filterMap_cons, this]

/-- The records the routing loop writes to shard `r`, when none of its
`Encode` calls fails. -/
theorem encodeLoop_shardRecords {nReduce : Int} {enc : List GoString} (hn : 1 ≤ nReduce)
    (hlen : enc.length = nReduce.toNat) (r : Nat) :
    ∀ (l : List KeyValue) (i : Nat), (∀ j < l.length, os.encodeErr (i + j) = false) →
      shardRecords r (encodeLoop os nReduce enc l i).2 =
        l.filter (fun kv => decide ((reduceID kv.Key nReduce).toNat = r)) := by
  intro l
  induction l with
  | nil => intro i _; rfl
  | cons kv rest ih =>
    intro i hw
    obtain ⟨file, _, h⟩ := encodeLoop_cons os hn hlen kv rest i
    rw [h]
    have h0 : os.encodeErr i = false := by
      simpa using hw 0 (by simp)
    have := ih (i + 1) (fun j hj => by
      have := hw (j + 1) (by simpa using hj)
      rwa [show i + (j + 1) = i + 1 + j by omega] at this)
    simp only [shardRecords] at this ⊢
    simp only [List.filterMap_cons, this, h0, Bool.not_false, List.filter_cons,
      decide_eq_true_eq]
    by_cases hr : (reduceID kv.Key nReduce).toNat = r <;> simp [hr]

theorem shardRecords_append (r : Nat) (a b : List Event) :
    shardRecords r (a ++ b) = shardRecords r a ++ shardRecords r b := by
  simp only [shardRecords, List.filterMap_append]

theorem encodedRecords_append (a b : List Event) :
    encodedRecords (a ++ b) = encodedRecords a ++ encodedRecords b := by
  simp only [encodedRecords, List.filterMap_append]

theorem shardRecords_createEvents (r : Nat) (jobName : GoString) (mapTask nReduce : Int) :
    shardRecords r (createEvents reduceName jobName mapTask nReduce) = [] := by
  simp [shardRecords, createEvents, List.filterMap_eq_nil_iff]

theorem encodedRecords_createEvents (jobName : GoString) (mapTask nReduce : Int) :
    encodedRecords (createEvents reduceName jobName mapTask nReduce) = [] := by
  simp [encodedRecords, createEvents, List.filterMap_eq_nil_iff]

theorem shardRecords_closeLoop (r : Nat) (files : List GoString) (s : Nat) :
    shardRecords r (closeLoop os files s) = [] := by
  rw [shardRecords, List.filterMap_eq_nil_iff]
  intro e he
  obtain ⟨_, _, _, rfl⟩ := closeLoop_mem os files s e he
  rfl

theorem encodedRecords_closeLoop (files : List GoString) (s : Nat) :
    encodedRecords (closeLoop os files s) = [] := by
  rw [encodedRecords, List.filterMap_eq_nil_iff]
  intro e he
  obtain ⟨_, _, _, rfl⟩ := closeLoop_mem os files s e he
  rfl

end traces

section general

variable (reduceName : GoString → Int → Int → GoString) (os : OS)

/-- In any run of `doMap`, whatever its outcome, an `Encode` call is made on
the encoder of index `ihash(kv.Key) % nReduce`, which writes to the file
`reduceName(jobName, mapTask, index)`, for a record `kv` of `mapF`'s output. -/
theorem doMap_encode_mem (jobName : GoString) (mapTask : Int) (inFile : GoString)
    (nReduce : Int) (mapF : GoString → GoString → List KeyValue)
    {s : Nat} {file : GoString} {kv : KeyValue} {ok : Bool}
    (h : Event.encode s file kv ok ∈
      (doMap reduceName os jobName mapTask inFile nReduce mapF).2) :
    1 ≤ nReduce ∧ s = (reduceID kv.Key nReduce).toNat ∧ s < nReduce.toNat ∧
      file = reduceName jobName mapTask (s : Int) ∧
      ∃ fileContent, os.readAll inFile = some fileContent ∧ kv ∈ mapF inFile fileContent := by
  unfold doMap at h
  split at h
  · simp at h
  · split at h
    · simp at h
    · rename_i fileContent hread
      split at h
      · simp at h
      · rename_i hneg
        split at h
        · rename_i evs hc
          simp only [List.mem_append, List.mem_cons, List.mem_singleton, reduceCtorEq,
            List.not_mem_nil, or_false, false_or] at h
          have := createLoop_mem reduceName os jobName mapTask _ _ _ (by rw [hc]; exact h)
          obtain ⟨_, _, h'⟩ := this
          cases h'
        · rename_i files evs hc
          obtain ⟨e1, e2, _⟩ := createLoop_some reduceName os jobName mapTask _ _ _ _ hc
          simp only [List.nil_append] at e1
          have key : Event.encode s file kv ok ∈
              (encodeLoop os nReduce files (mapF inFile fileContent) 0).2 := by
            dsimp only at h
            rcases hen : encodeLoop os nReduce files (mapF inFile fileContent) 0 with
              ⟨_ | msg, evs2⟩
            all_goals
              rw [hen] at h
              simp only [List.mem_append, List.mem_cons, List.mem_singleton, reduceCtorEq,
                List.not_mem_nil, or_false, false_or] at h
            · rcases h with (h | h) | h
              · rw [e2] at h
                simp at h
              · exact h
              · obtain ⟨_, _, _, h'⟩ := closeLoop_mem os _ _ _ h
                cases h'
            · rcases h with h | h
              · rw [e2] at h
                simp at h
              · exact h
          obtain ⟨kv', hkv', file', ok', h0, hget, heq⟩ := encodeLoop_mem os _ _ _ _ _ key
          cases heq
          have hlt : (reduceID kv.Key nReduce).toNat < files.length := by
            by_contra hcon
            rw [List.get?_eq_none.mpr (not_lt.mp hcon)] at hget
            cases hget
          rw [e1, List.length_map, List.length_range] at hlt
          refine ⟨by omega, rfl, hlt, ?_, fileContent, hread, hkv'⟩
          have := shardFiles_get? reduceName jobName mapTask nReduce _ hlt
          rw [shardFiles, ← e1, hget] at this
          simpa [shardName] using Option.some.inj this

end general

section more

variable (reduceName : GoString → Int → Int → GoString) (os : OS)

/-- The sum over the shards of the records of each shard is the whole list. -/
theorem sum_filter_shards {α : Type} (f : α → Nat) (n : Nat) (l : List α)
    (h : ∀ x ∈ l, f x < n) :
    (∑ r ∈ Finset.range n, ((l.filter (fun x => decide (f x = r)) : List α) : Multiset α)) =
      ((l : List α) : Multiset α) := by
  induction l with
  | nil => simp
  | cons a l ih =>
    have ha : f a < n := h a (List.mem_cons_self _ _)
    have hl := ih (fun x hx => h x (List.mem_cons_of_mem _ hx))
    have step : ∀ r, (((a :: l).filter (fun x => decide (f x = r)) : List α) : Multiset α) =
        (if f a = r then ({a} : Multiset α) else 0) +
          ((l.filter (fun x => decide (f x = r)) : List α) : Multiset α) := by
      intro r
      by_cases hr : f a = r
      · simp [List.filter_cons, hr]
      · simp [List.filter_cons, hr]
    simp only [step, Finset.sum_add_distrib, hl, Finset.sum_ite_eq, Finset.mem_range, ha,
      if_true]
    simp

theorem doMap_no_panic (jobName : GoString) (mapTask : Int) (inFile : GoString)
    (nReduce : Int) (mapF : GoString → GoString → List KeyValue) (hn : 1 ≤ nReduce)
    (hmax : nReduce ≤ 2 ^ 45) (msg : String) :
    (doMap reduceName os jobName mapTask inFile nReduce mapF).1 ≠ Outcome.panic msg := by
  unfold doMap
  split
  · simp
  · split
    · simp
    · rename_i fileContent hread
      have hneg : makesliceCapOutOfRange nReduce = false :=
        (makeslice_iff nReduce).mpr ⟨by omega, hmax⟩
      simp only [hneg, Bool.false_eq_true, if_false]
      split
      · simp
      · rename_i files evs hc
        obtain ⟨e1, _, _⟩ := createLoop_some reduceName os jobName mapTask _ _ _ _ hc
        have hlen : files.length = nReduce.toNat := by simp [e1]
        have hp := encodeLoop_no_panic os hn hlen (mapF inFile fileContent) 0
        rw [← Prod.mk.eta (p := encodeLoop os nReduce files (mapF inFile fileContent) 0), hp]
        simp

/-- A failed `os.Create` ends the run in `log.Fatal` with the text of the
error after `doMap Create: `, before any `Encode`. -/
theorem doMap_create_failure_is_fatal :
    doMap dashName (OS.createFails []) [] 0 [] 2 threeWords =
      (Outcome.fatal "doMap Create: permission denied",
        [Event.openInput [] true, Event.readInput true, Event.callMapF [] [],
          Event.create [] false]) := by
  decide

theorem toNat_eq_iff_emod (key : GoString) {nReduce : Int} (hn : 1 ≤ nReduce) (r : Nat) :
    (reduceID key nReduce).toNat = r ↔ ihash key % nReduce = (r : Int) := by
  have h0 := reduceID_nonneg key nReduce
  rw [← reduceID_eq_emod key hn]
  omega

/-- When `reduceName` gives different names to the shards below `nReduce`,
the records written to the file of shard `r` are those written to shard `r`. -/
theorem fileRecords_eq_shardRecords (jobName : GoString) (mapTask : Int) (inFile : GoString)
    (nReduce : Int) (mapF : GoString → GoString → List KeyValue)
    (hinj : ∀ r₁ r₂ : Nat, r₁ < nReduce.toNat → r₂ < nReduce.toNat →
      reduceName jobName mapTask (r₁ : Int) = reduceName jobName mapTask (r₂ : Int) → r₁ = r₂)
    (r : Nat) (hr : r < nReduce.toNat) :
    fileRecords (reduceName jobName mapTask (r : Int))
        (doMap reduceName os jobName mapTask inFile nReduce mapF).2 =
      shardRecords r (doMap reduceName os jobName mapTask inFile nReduce mapF).2 := by
  unfold fileRecords shardRecords
  apply List.filterMap_congr
  intro e he
  cases e with
  | encode s file kv ok =>
    obtain ⟨_, _, hs, hf, _⟩ :=
      doMap_encode_mem reduceName os jobName mapTask inFile nReduce mapF he
    cases ok with
    | false => rfl
    | true =>
      subst hf
      by_cases hsr : s = r
      · subst hsr; simp
      · have : ¬ reduceName jobName mapTask (s : Int) = reduceName jobName mapTask (r : Int) :=
          fun h => hsr (hinj s r hs hr h)
        simp [hsr, this]
  | _ => rfl

end more

/-! ## Bit operations as arithmetic -/

theorem lor_eq_add (x c k : Nat) (hx : x % 2 ^ k = 0) (hc : c < 2 ^ k) : x ||| c = x + c := by
  have h := Nat.mul_add_lt_is_or hc (x / 2 ^ k)
  have hx2 : 2 ^ k * (x / 2 ^ k) = x := by
    have := Nat.div_add_mod x (2 ^ k)
    omega
  rw [hx2] at h
  exact h.symm

theorem land_1F (x : Nat) : x &&& 0x1F = x % 32 := Nat.and_pow_two_sub_one_eq_mod x 5
theorem land_0F (x : Nat) : x &&& 0x0F = x % 16 := Nat.and_pow_two_sub_one_eq_mod x 4
theorem land_07 (x : Nat) : x &&& 0x07 = x % 8 := Nat.and_pow_two_sub_one_eq_mod x 3
theorem land_3F (x : Nat) : x &&& 0x3F = x % 64 := Nat.and_pow_two_sub_one_eq_mod x 6

theorem shl_6 (x : Nat) : x <<< 6 = x * 64 := Nat.shiftLeft_eq x 6
theorem shl_12 (x : Nat) : x <<< 12 = x * 4096 := Nat.shiftLeft_eq x 12
theorem shl_18 (x : Nat) : x <<< 18 = x * 262144 := Nat.shiftLeft_eq x 18
theorem shr_6 (x : Nat) : x >>> 6 = x / 64 := Nat.shiftRight_eq_div_pow x 6
theorem shr_12 (x : Nat) : x >>> 12 = x / 4096 := Nat.shiftRight_eq_div_pow x 12
theorem shr_18 (x : Nat) : x >>> 18 = x / 262144 := Nat.shiftRight_eq_div_pow x 18

theorem byte_val (n : Nat) : (byte n).val = n % 256 := rfl

theorem byte_eq (n : Nat) (b : Byte) (h : n = b.val) : byte n = b := by
  apply Fin.ext
  rw [byte_val, h]
  exact Nat.mod_eq_of_lt b.isLt

/-- The rune of a two-byte encoding, as a sum. -/
theorem rune2_eq (a b : Nat) : ((a &&& 0x1F) <<< 6) ||| (b &&& 0x3F) = a % 32 * 64 + b % 64 := by
  rw [land_1F, land_3F, shl_6]
  exact lor_eq_add _ _ 6 (by norm_num) (by norm_num; omega)

/-- The rune of a three-byte encoding, as a sum. -/
theorem rune3_eq (a b c : Nat) :
    ((a &&& 0x0F) <<< 12) ||| ((b &&& 0x3F) <<< 6) ||| (c &&& 0x3F) =
      a % 16 * 4096 + b % 64 * 64 + c % 64 := by
  rw [land_0F, land_3F, land_3F, shl_6, shl_12]
  rw [lor_eq_add (a % 16 * 4096) (b % 64 * 64) 12 (by norm_num) (by norm_num; omega)]
  exact lor_eq_add _ _ 6 (by norm_num; omega) (by norm_num; omega)

/-- The rune of a four-byte encoding, as a sum. -/
theorem rune4_eq (a b c d : Nat) :
    ((a &&& 0x07) <<< 18) ||| ((b &&& 0x3F) <<< 12) ||| ((c &&& 0x3F) <<< 6) ||| (d &&& 0x3F) =
      a % 8 * 262144 + b % 64 * 4096 + c % 64 * 64 + d % 64 := by
  rw [land_07, land_3F, land_3F, land_3F, shl_6, shl_12, shl_18]
  rw [lor_eq_add (a % 8 * 262144) (b % 64 * 4096) 18 (by norm_num) (by norm_num; omega)]
  rw [lor_eq_add (a % 8 * 262144 + b % 64 * 4096) (c % 64 * 64) 12 (by norm_num; omega)
    (by norm_num; omega)]
  exact lor_eq_add _ _ 6 (by norm_num; omega) (by norm_num; omega)

/-- A continuation byte `0x80 | (x & 0x3F)`. -/
theorem cont_eq (x : Nat) : 0x80 ||| (x &&& 0x3F) = 128 + x % 64 := by
  rw [land_3F]
  exact lor_eq_add _ _ 6 (by norm_num) (by norm_num; omega)

theorem lead2_eq (x : Nat) (h : x < 32) : 0xC0 ||| x = 192 + x :=
  lor_eq_add _ _ 5 (by norm_num) (by norm_num; omega)

theorem lead3_eq (x : Nat) (h : x < 16) : 0xE0 ||| x = 224 + x :=
  lor_eq_add _ _ 4 (by norm_num) (by norm_num; omega)

theorem lead4_eq (x : Nat) (h : x < 8) : 0xF0 ||| x = 240 + x :=
  lor_eq_add _ _ 3 (by norm_num) (by norm_num; omega)

namespace utf8

/-! ## `EncodeRune` after `DecodeRune` -/

theorem EncodeRune_two (b0 b1 : Byte) (r : Nat) (hr : r = b0.val % 32 * 64 + b1.val % 64)
    (h0 : 0xC2 ≤ b0.val ∧ b0.val ≤ 0xDF) (h1 : 0x80 ≤ b1.val ∧ b1.val ≤ 0xBF) :
    EncodeRune r = [b0, b1] ∧ utf16.IsSurrogate r = false ∧ r ≠ 0x2028 ∧ r ≠ 0x2029 := by
  have hlo : ¬ r ≤ 0x7F := by omega
  have hhi : r ≤ 0x7FF := by omega
  have e1 : 0xC0 ||| (byte (r >>> 6)).val = b0.val := by
    rw [byte_val, shr_6, lead2_eq _ (by omega)]; omega
  have e2 : 0x80 ||| ((byte r).val &&& 0x3F) = b1.val := by
    rw [cont_eq, byte_val]; omega
  refine ⟨?_, ?_, by omega, by omega⟩
  · simp only [EncodeRune, hlo, hhi, if_false, if_true, e1, e2, byte_eq _ _ rfl]
  · simp only [utf16.IsSurrogate, decide_eq_false_iff_not]; omega

theorem EncodeRune_three (b0 b1 b2 : Byte) (r : Nat)
    (hr : r = b0.val % 16 * 4096 + b1.val % 64 * 64 + b2.val % 64)
    (h0 : 0xE0 ≤ b0.val ∧ b0.val ≤ 0xEF) (h1 : 0x80 ≤ b1.val ∧ b1.val ≤ 0xBF)
    (hE0 : b0.val = 0xE0 → 0xA0 ≤ b1.val) (hED : b0.val = 0xED → b1.val ≤ 0x9F)
    (h2 : 0x80 ≤ b2.val ∧ b2.val ≤ 0xBF) :
    EncodeRune r = [b0, b1, b2] ∧ utf16.IsSurrogate r = false := by
  have hlo : ¬ r ≤ 0x7F := by omega
  have hlo2 : ¬ r ≤ 0x7FF := by omega
  have hs : ¬ (0xD800 ≤ r ∧ r ≤ 0xDFFF) := by omega
  have hmax : ¬ r > MaxRune := by unfold MaxRune; omega
  have hhi : r ≤ 0xFFFF := by omega
  have e1 : 0xE0 ||| (byte (r >>> 12)).val = b0.val := by
    rw [byte_val, shr_12, lead3_eq _ (by omega)]; omega
  have e2 : 0x80 ||| ((byte (r >>> 6)).val &&& 0x3F) = b1.val := by
    rw [cont_eq, byte_val, shr_6]; omega
  have e3 : 0x80 ||| ((byte r).val &&& 0x3F) = b2.val := by
    rw [cont_eq, byte_val]; omega
  refine ⟨?_, ?_⟩
  · simp only [EncodeRune, hlo, hlo2, hs, hmax, hhi, or_self, if_false, if_true, e1, e2, e3,
      byte_eq _ _ rfl]
  · simp only [utf16.IsSurrogate, decide_eq_false_iff_not]; omega

theorem EncodeRune_four (b0 b1 b2 b3 : Byte) (r : Nat)
    (hr : r = b0.val % 8 * 262144 + b1.val % 64 * 4096 + b2.val % 64 * 64 + b3.val % 64)
    (h0 : 0xF0 ≤ b0.val ∧ b0.val ≤ 0xF4) (h1 : 0x80 ≤ b1.val ∧ b1.val ≤ 0xBF)
    (hF0 : b0.val = 0xF0 → 0x90 ≤ b1.val) (hF4 : b0.val = 0xF4 → b1.val ≤ 0x8F)
    (h2 : 0x80 ≤ b2.val ∧ b2.val ≤ 0xBF) (h3 : 0x80 ≤ b3.val ∧ b3.val ≤ 0xBF) :
    EncodeRune r = [b0, b1, b2, b3] ∧ utf16.IsSurrogate r = false ∧ r ≠ 0x2028 ∧
      r ≠ 0x2029 := by
  have hlo : ¬ r ≤ 0x7F := by omega
  have hlo2 : ¬ r ≤ 0x7FF := by omega
  have hs : ¬ (0xD800 ≤ r ∧ r ≤ 0xDFFF) := by omega
  have hmax : ¬ r > MaxRune := by unfold MaxRune; omega
  have hhi : ¬ r ≤ 0xFFFF := by omega
  have e1 : 0xF0 ||| (byte (r >>> 18)).val = b0.val := by
    rw [byte_val, shr_18, lead4_eq _ (by omega)]; omega
  have e2 : 0x80 ||| ((byte (r >>> 12)).val &&& 0x3F) = b1.val := by
    rw [cont_eq, byte_val, shr_12]; omega
  have e3 : 0x80 ||| ((byte (r >>> 6)).val &&& 0x3F) = b2.val := by
    rw [cont_eq, byte_val, shr_6]; omega
  have e4 : 0x80 ||| ((byte r).val &&& 0x3F) = b3.val := by
    rw [cont_eq, byte_val]; omega
  refine ⟨?_, ?_, by omega, by omega⟩
  · simp only [EncodeRune, hlo, hlo2, hs, hmax, hhi, or_self, if_false, e1, e2, e3, e4,
      byte_eq _ _ rfl]
  · simp only [utf16.IsSurrogate, decide_eq_false_iff_not]; omega

end utf8

theorem land_7 (x : Nat) : x &&& 7 = x % 8 := Nat.and_pow_two_sub_one_eq_mod x 3
theorem shr_4 (x : Nat) : x >>> 4 = x / 16 := Nat.shiftRight_eq_div_pow x 4

theorem rune4_eq_mod (a b c d : Nat) :
    ((a % 8) <<< 18) ||| ((b &&& 0x3F) <<< 12) ||| ((c &&& 0x3F) <<< 6) ||| (d &&& 0x3F) =
      a % 8 * 262144 + b % 64 * 4096 + c % 64 * 64 + d % 64 := by
  have h := rune4_eq a b c d
  rw [land_07] at h
  exact h

namespace utf8

theorem first_xx (b : Nat) (h : 0x80 ≤ b ∧ (b < 0xC2 ∨ 0xF5 ≤ b)) : first b = 0xF1 := by
  unfold first
  rcases h with ⟨h1, h2 | h2⟩
  · rw [if_neg (by omega), if_pos (by omega)]
  · repeat rw [if_neg (by omega)]

theorem first_s1 (b : Nat) (h : 0xC2 ≤ b ∧ b ≤ 0xDF) : first b = 0x02 := by
  unfold first
  repeat rw [if_neg (by omega)]
  rw [if_pos (by omega)]

theorem first_s2 (b : Nat) (h : b = 0xE0) : first b = 0x13 := by
  subst h; decide

theorem first_s3 (b : Nat) (h : 0xE1 ≤ b ∧ b ≤ 0xEF ∧ b ≠ 0xED) : first b = 0x03 := by
  unfold first
  by_cases h2 : b < 0xED
  all_goals
    repeat rw [if_neg (by omega)]
    rw [if_pos (by omega)]

theorem first_s4 (b : Nat) (h : b = 0xED) : first b = 0x23 := by
  subst h; decide

theorem first_s5 (b : Nat) (h : b = 0xF0) : first b = 0x34 := by
  subst h; decide

theorem first_s6 (b : Nat) (h : 0xF1 ≤ b ∧ b ≤ 0xF3) : first b = 0x04 := by
  unfold first
  repeat rw [if_neg (by omega)]
  rw [if_pos (by omega)]

theorem first_s7 (b : Nat) (h : b = 0xF4) : first b = 0x44 := by
  subst h; decide

/-- A valid two-byte encoding at the head of a string. -/
theorem head_two (b0 : Byte) (rest : List Byte) (size : Nat)
    (h0 : 0xC2 ≤ b0.val ∧ b0.val ≤ 0xDF)
    (hv : validStep (b0 :: rest) = some size) :
    ∃ l rest2 c, b0 :: rest = l ++ rest2 ∧ l.length = size ∧ 2 ≤ size ∧
      (∀ b ∈ l, 0x80 ≤ b.val) ∧ (∀ t, DecodeRune (l ++ t) = (c, size)) ∧
      EncodeRune c = l ∧ utf16.IsSurrogate c = false := by
  have hx := first_s1 b0.val h0
  have hself : ¬ b0.val < RuneSelf := by unfold RuneSelf; omega
  rcases rest with _ | ⟨b1, rest2⟩
  · simp [validStep, hself, hx, land_7] at hv
  · simp only [validStep, List.getD_cons_zero, hself, if_false, hx, List.length_cons,
      List.getD_cons_succ, land_7, shr_4] at hv
    norm_num [acceptRanges] at hv
    obtain ⟨hb1, hsz⟩ := hv
    subst hsz
    obtain ⟨e, s, _, _⟩ := EncodeRune_two b0 b1 _ rfl h0 ⟨hb1.1, hb1.2⟩
    refine ⟨[b0, b1], rest2, _, rfl, rfl, le_refl _, ?_, ?_, e, s⟩
    · intro b hb
      simp only [List.mem_cons, List.mem_singleton, List.not_mem_nil, or_false] at hb
      rcases hb with rfl | rfl <;> omega
    · intro t
      simp only [DecodeRune, List.cons_append, List.nil_append, List.length_cons,
        List.getD_cons_zero, List.getD_cons_succ, hx, land_7, shr_4]
      norm_num [acceptRanges, rune2_eq]
      repeat rw [if_neg (by omega)]

/-- A valid three-byte encoding at the head of a string, for a first byte
whose entry in `first` is `x`. -/
theorem head_three (b0 : Byte) (rest : List Byte) (size x lo hi : Nat)
    (hx : first b0.val = x) (hxlt : x < 0xF0) (hsz : x % 8 = 3)
    (hacc : acceptRanges (x / 16) = (lo, hi))
    (h0 : 0xE0 ≤ b0.val ∧ b0.val ≤ 0xEF) (hlo : 0x80 ≤ lo) (hhi : hi ≤ 0xBF)
    (hE0 : b0.val = 0xE0 → 0xA0 ≤ lo) (hED : b0.val = 0xED → hi ≤ 0x9F)
    (hv : validStep (b0 :: rest) = some size) :
    ∃ l rest2 c, b0 :: rest = l ++ rest2 ∧ l.length = size ∧ 2 ≤ size ∧
      (∀ b ∈ l, 0x80 ≤ b.val) ∧ (∀ t, DecodeRune (l ++ t) = (c, size)) ∧
      EncodeRune c = l ∧ utf16.IsSurrogate c = false := by
  have hself : ¬ b0.val < RuneSelf := by unfold RuneSelf; omega
  have hx1 : ¬ x = 0xF1 := by omega
  have hge : ¬ x ≥ 0xF0 := by omega
  rcases rest with _ | ⟨b1, _ | ⟨b2, rest2⟩⟩
  · simp [validStep, hself, hx, hx1, land_7, hsz] at hv
  · simp [validStep, hself, hx, hx1, land_7, hsz] at hv
  · simp only [validStep, List.getD_cons_zero, hself, if_false, hx, hx1, List.length_cons,
      List.getD_cons_succ, land_7, shr_4, hsz, hacc] at hv
    norm_num at hv
    obtain ⟨hb1, hb2, hsize⟩ := hv
    subst hsize
    obtain ⟨e, s⟩ := EncodeRune_three b0 b1 b2 _ rfl h0 ⟨by omega, by omega⟩
      (fun h => by have := hE0 h; omega) (fun h => by have := hED h; omega) ⟨hb2.1, hb2.2⟩
    refine ⟨[b0, b1, b2], rest2, _, rfl, rfl, by omega, ?_, ?_, e, s⟩
    · intro b hb
      simp only [List.mem_cons, List.mem_singleton, List.not_mem_nil, or_false] at hb
      rcases hb with rfl | rfl | rfl <;> omega
    · intro t
      simp only [DecodeRune, List.cons_append, List.nil_append, List.length_cons,
        List.getD_cons_zero, List.getD_cons_succ, hx, hge, if_false, land_7, shr_4, hsz, hacc,
        rune3_eq]
      norm_num
      repeat rw [if_neg (by omega)]

/-- A valid four-byte encoding at the head of a string, for a first byte
whose entry in `first` is `x`. -/
theorem head_four (b0 : Byte) (rest : List Byte) (size x lo hi : Nat)
    (hx : first b0.val = x) (hxlt : x < 0xF0) (hsz : x % 8 = 4)
    (hacc : acceptRanges (x / 16) = (lo, hi))
    (h0 : 0xF0 ≤ b0.val ∧ b0.val ≤ 0xF4) (hlo : 0x80 ≤ lo) (hhi : hi ≤ 0xBF)
    (hF0 : b0.val = 0xF0 → 0x90 ≤ lo) (hF4 : b0.val = 0xF4 → hi ≤ 0x8F)
    (hv : validStep (b0 :: rest) = some size) :
    ∃ l rest2 c, b0 :: rest = l ++ rest2 ∧ l.length = size ∧ 2 ≤ size ∧
      (∀ b ∈ l, 0x80 ≤ b.val) ∧ (∀ t, DecodeRune (l ++ t) = (c, size)) ∧
      EncodeRune c = l ∧ utf16.IsSurrogate c = false := by
  have hself : ¬ b0.val < RuneSelf := by unfold RuneSelf; omega
  have hx1 : ¬ x = 0xF1 := by omega
  have hge : ¬ x ≥ 0xF0 := by omega
  rcases rest with _ | ⟨b1, _ | ⟨b2, _ | ⟨b3, rest2⟩⟩⟩
  · simp [validStep, hself, hx, hx1, land_7, hsz] at hv
  · simp [validStep, hself, hx, hx1, land_7, hsz] at hv
  · simp [validStep, hself, hx, hx1, land_7, hsz] at hv
  · simp only [validStep, List.getD_cons_zero, hself, if_false, hx, hx1, List.length_cons,
      List.getD_cons_succ, land_7, shr_4, hsz, hacc] at hv
    norm_num at hv
    obtain ⟨hb1, hb2, hb3, hsize⟩ := hv
    subst hsize
    obtain ⟨e, s, _, _⟩ := EncodeRune_four b0 b1 b2 b3 _ rfl h0 ⟨by omega, by omega⟩
      (fun h => by have := hF0 h; omega) (fun h => by have := hF4 h; omega) ⟨hb2.1, hb2.2⟩
      ⟨hb3.1, hb3.2⟩
    refine ⟨[b0, b1, b2, b3], rest2, _, rfl, rfl, by omega, ?_, ?_, e, s⟩
    · intro b hb
      simp only [List.mem_cons, List.mem_singleton, List.not_mem_nil, or_false] at hb
      rcases hb with rfl | rfl | rfl | rfl <;> omega
    · intro t
      simp only [DecodeRune, List.cons_append, List.nil_append, List.length_cons,
        List.getD_cons_zero, List.getD_cons_succ, hx, hge, if_false, land_7, shr_4, hsz, hacc,
        rune4_eq_mod]
      norm_num
      repeat rw [if_neg (by omega)]

/-- A valid multi-byte encoding at the head of a string: `ValidString`
steps over the bytes `l`, which `DecodeRune` decodes to a rune `c` that
`EncodeRune` encodes as `l` again. -/
theorem valid_head (b0 : Byte) (rest : List Byte) (size : Nat) (hb : 0x80 ≤ b0.val)
    (hv : validStep (b0 :: rest) = some size) :
    ∃ l rest2 c, b0 :: rest = l ++ rest2 ∧ l.length = size ∧ 2 ≤ size ∧
      (∀ b ∈ l, 0x80 ≤ b.val) ∧ (∀ t, DecodeRune (l ++ t) = (c, size)) ∧
      EncodeRune c = l ∧ utf16.IsSurrogate c = false := by
  have hlt := b0.isLt
  by_cases c1 : b0.val < 0xC2 ∨ 0xF5 ≤ b0.val
  · have hx := first_xx b0.val ⟨hb, c1⟩
    have hself : ¬ b0.val < RuneSelf := by unfold RuneSelf; omega
    simp [validStep, hself, hx] at hv
  by_cases c2 : b0.val ≤ 0xDF
  · exact head_two b0 rest size ⟨by omega, c2⟩ hv
  by_cases c3 : b0.val = 0xE0
  · exact head_three b0 rest size _ 0xA0 0xBF (first_s2 _ c3) (by norm_num) (by norm_num)
      (by norm_num [acceptRanges]) (by omega) (by norm_num) (by norm_num) (by omega)
      (by omega) hv
  by_cases c4 : b0.val = 0xED
  · exact head_three b0 rest size _ 0x80 0x9F (first_s4 _ c4) (by norm_num) (by norm_num)
      (by norm_num [acceptRanges]) (by omega) (by norm_num) (by norm_num) (by omega)
      (by omega) hv
  by_cases c5 : b0.val ≤ 0xEF
  · exact head_three b0 rest size _ 0x80 0xBF (first_s3 _ ⟨by omega, c5, c4⟩) (by norm_num)
      (by norm_num) (by norm_num [acceptRanges]) (by omega) (by norm_num) (by norm_num)
      (by omega) (by omega) hv
  by_cases c6 : b0.val = 0xF0
  · exact head_four b0 rest size _ 0x90 0xBF (first_s5 _ c6) (by norm_num) (by norm_num)
      (by norm_num [acceptRanges]) (by omega) (by norm_num) (by norm_num) (by omega)
      (by omega) hv
  by_cases c7 : b0.val = 0xF4
  · exact head_four b0 rest size _ 0x80 0x8F (first_s7 _ c7) (by norm_num) (by norm_num)
      (by norm_num [acceptRanges]) (by omega) (by norm_num) (by norm_num) (by omega)
      (by omega) hv
  · exact head_four b0 rest size _ 0x80 0xBF (first_s6 _ ⟨by omega, by omega⟩) (by norm_num)
      (by norm_num) (by norm_num [acceptRanges]) (by omega) (by norm_num) (by norm_num)
      (by omega) (by omega) hv

end utf8

theorem lit_val (n : Nat) : ((no_index (OfNat.ofNat n) : Byte) : Nat) = n % 256 := rfl

namespace json

/-! ## String literals: what the scanner and `unquoteBytes` do on escaped text -/

theorem hexValue_isHexDigit (c d : Nat) (h : hexValue c = some d) : isHexDigit c = true := by
  unfold hexValue at h
  unfold isHexDigit
  split_ifs at h <;> simp <;> omega

theorem getu4_cons (a b c1 c2 c3 c4 : Byte) (t : List Byte) :
    getu4 (a :: b :: c1 :: c2 :: c3 :: c4 :: t) = getu4 [a, b, c1, c2, c3, c4] := rfl

theorem getu4_digits (a b c1 c2 c3 c4 : Byte) (r : Nat)
    (h : getu4 [a, b, c1, c2, c3, c4] = some r) :
    isHexDigit c1.val = true ∧ isHexDigit c2.val = true ∧ isHexDigit c3.val = true ∧
      isHexDigit c4.val = true := by
  simp only [getu4] at h
  split_ifs at h
  split at h
  · rename_i d1 d2 d3 d4 e1 e2 e3 e4
    exact ⟨hexValue_isHexDigit _ _ e1, hexValue_isHexDigit _ _ e2, hexValue_isHexDigit _ _ e3,
      hexValue_isHexDigit _ _ e4⟩
  · cases h

/-- The scanner reads an escaped text up to the closing quote after it. -/
theorem scanLiteral_escaped (e d : List Byte) (h : Escaped e d) (t : List Byte) :
    scanLiteral StringState.inString (e ++ 34 :: t) = some (e ++ [34], t) := by
  induction h with
  | nil => simp [lit_val, scanLiteral, stringStateStep]
  | ascii b e d h1 h2 h3 h4 _ ih =>
    have h5 : ¬ b.val < 32 := by omega
    simp [lit_val, scanLiteral, stringStateStep, h3, h4, h5, ih]
  | short c b e d h _ ih =>
    have hc : c.val = 98 ∨ c.val = 102 ∨ c.val = 110 ∨ c.val = 114 ∨ c.val = 116 ∨
        c.val = 92 ∨ c.val = 47 ∨ c.val = 34 := by omega
    simp [lit_val, scanLiteral, stringStateStep, hc, ih]
  | unicode h1 h2 h3 h4 r e d hr hs _ ih =>
    obtain ⟨d1, d2, d3, d4⟩ := getu4_digits _ _ _ _ _ _ _ hr
    simp [lit_val, scanLiteral, stringStateStep, d1, d2, d3, d4, ih]
  | raw l c e d h1 h2 h3 h4 _ ih =>
    clear h1 h3 h4
    induction l with
    | nil => simpa using ih
    | cons b l ihl =>
      have hb := h2 b (List.mem_cons_self _ _)
      have n1 : ¬ b.val = 34 := by omega
      have n2 : ¬ b.val = 92 := by omega
      have n3 : ¬ b.val < 32 := by omega
      have := ihl (fun x hx => h2 x (List.mem_cons_of_mem _ hx))
      simp only [List.cons_append, List.append_assoc] at this ⊢
      simp [lit_val, scanLiteral, stringStateStep, n1, n2, n3, this]

/-- The second loop of `unquoteBytes` turns an escaped text into the
string it stands for. -/
theorem unquoteLoop_escaped (e d : List Byte) (h : Escaped e d) :
    ∀ fuel, e.length ≤ fuel → unquoteLoop fuel e = some d := by
  induction h with
  | nil => intro fuel _; cases fuel <;> rfl
  | ascii b e d h1 h2 h3 h4 _ ih =>
    intro fuel hf
    obtain ⟨fuel, rfl⟩ : ∃ k, fuel = k + 1 := ⟨fuel - 1, by simp at hf; omega⟩
    have h5 : ¬ b.val < 32 := by omega
    have h6 : b.val < utf8.RuneSelf := by unfold utf8.RuneSelf; omega
    simp only [List.length_cons] at hf
    simp [lit_val, unquoteLoop, unquoteStep, h3, h4, h5, h6, ih fuel (by omega)]
  | short c b e d h _ ih =>
    intro fuel hf
    obtain ⟨fuel, rfl⟩ : ∃ k, fuel = k + 1 := ⟨fuel - 1, by simp at hf; omega⟩
    simp only [List.length_cons] at hf
    have ihf := ih fuel (by omega)
    rcases h with ⟨hc, hb⟩ | ⟨hc, hb⟩ | ⟨hc, hb⟩ | ⟨hc, hb⟩ | ⟨hc, hb⟩
    all_goals
      simp [lit_val, unquoteLoop, unquoteStep, hc, ihf]
      apply Fin.ext
      simp [lit_val, hb, hc]
  | unicode h1 h2 h3 h4 r e d hr hs _ ih =>
    intro fuel hf
    obtain ⟨fuel, rfl⟩ : ∃ k, fuel = k + 1 := ⟨fuel - 1, by simp at hf; omega⟩
    simp only [List.length_cons] at hf
    have ihf := ih fuel (by omega)
    simp [lit_val, unquoteLoop, unquoteStep, getu4_cons, hr, hs, ihf]
  | raw l c e d h1 h2 h3 h4 _ ih =>
    intro fuel hf
    obtain ⟨fuel, rfl⟩ : ∃ k, fuel = k + 1 := ⟨fuel - 1, by simp at hf; omega⟩
    simp only [List.length_append] at hf
    have ihf := ih fuel (by omega)
    rcases l with _ | ⟨b, l⟩
    · simp at h1
    · have hb := h2 b (List.mem_cons_self _ _)
      have n1 : ¬ b.val = 34 := by omega
      have n2 : ¬ b.val = 92 := by omega
      have n3 : ¬ b.val < 32 := by omega
      have n4 : ¬ b.val < utf8.RuneSelf := by unfold utf8.RuneSelf; omega
      have hd := h3 e
      simp only [List.cons_append] at hd ⊢
      simp only [unquoteLoop, unquoteStep, n1, n2, n3, n4, if_false, or_self, hd, h4]
      have : List.drop (b :: l).length (b :: (l ++ e)) = e := by
        rw [← List.cons_append, List.drop_left]
      rw [this, ihf]
      simp

/-- The first loop of `unquoteBytes` skips a prefix of an escaped text
that stands for itself. -/
theorem plainLoop_escaped (e d : List Byte) (h : Escaped e d) :
    ∀ fuel, e.length ≤ fuel →
      ∃ d2, plainLoop fuel e ≤ e.length ∧ d = e.take (plainLoop fuel e) ++ d2 ∧
        Escaped (e.drop (plainLoop fuel e)) d2 := by
  induction h with
  | nil =>
    intro fuel _
    refine ⟨[], ?_, ?_, ?_⟩ <;> cases fuel <;> simp [plainLoop, Escaped.nil]
  | ascii b e d h1 h2 h3 h4 _ ih =>
    intro fuel hf
    obtain ⟨fuel, rfl⟩ : ∃ k, fuel = k + 1 := ⟨fuel - 1, by simp at hf; omega⟩
    simp only [List.length_cons] at hf
    obtain ⟨d2, i1, i2, i3⟩ := ih fuel (by omega)
    have h5 : ¬ b.val < 32 := by omega
    have h6 : b.val < utf8.RuneSelf := by unfold utf8.RuneSelf; omega
    have hp : plainLoop (fuel + 1) (b :: e) = 1 + plainLoop fuel e := by
      simp [plainLoop, plainStep, h3, h4, h5, h6]
    rw [hp]
    refine ⟨d2, by simp only [List.length_cons]; omega, ?_, ?_⟩
    · rw [Nat.add_comm, List.take_succ_cons, List.cons_append, ← i2]
    · rw [Nat.add_comm, List.drop_succ_cons]; exact i3
  | short c b e d h he _ =>
    intro fuel hf
    obtain ⟨fuel, rfl⟩ : ∃ k, fuel = k + 1 := ⟨fuel - 1, by simp at hf; omega⟩
    have hp : plainLoop (fuel + 1) (92 :: c :: e) = 0 := by
      simp [lit_val, plainLoop, plainStep]
    rw [hp]
    exact ⟨b :: d, Nat.zero_le _, rfl, Escaped.short c b e d h he⟩
  | unicode h1 h2 h3 h4 r e d hr hs he _ =>
    intro fuel hf
    obtain ⟨fuel, rfl⟩ : ∃ k, fuel = k + 1 := ⟨fuel - 1, by simp at hf; omega⟩
    have hp : plainLoop (fuel + 1) (92 :: 117 :: h1 :: h2 :: h3 :: h4 :: e) = 0 := by
      simp [lit_val, plainLoop, plainStep]
    rw [hp]
    exact ⟨_, Nat.zero_le _, rfl, Escaped.unicode h1 h2 h3 h4 r e d hr hs he⟩
  | raw l c e d h1 h2 h3 h4 _ ih =>
    intro fuel hf
    obtain ⟨fuel, rfl⟩ : ∃ k, fuel = k + 1 := ⟨fuel - 1, by simp at hf; omega⟩
    simp only [List.length_append] at hf
    obtain ⟨d2, i1, i2, i3⟩ := ih fuel (by omega)
    have hp : plainLoop (fuel + 1) (l ++ e) = l.length + plainLoop fuel e := by
      rcases l with _ | ⟨b, l⟩
      · simp at h1
      · have hb := h2 b (List.mem_cons_self _ _)
        have n1 : ¬ b.val = 34 := by omega
        have n2 : ¬ b.val = 92 := by omega
        have n3 : ¬ b.val < 32 := by omega
        have n4 : ¬ b.val < utf8.RuneSelf := by unfold utf8.RuneSelf; omega
        have hd := h3 e
        have hlen : ¬ (b :: l).length = 1 := by omega
        simp only [List.cons_append] at hd ⊢
        simp only [plainLoop, plainStep, n1, n2, n3, n4, if_false, or_self, hd, hlen,
          and_false]
        rw [← List.cons_append, List.drop_left]
    rw [hp]
    refine ⟨d2, by simp only [List.length_append]; omega, ?_, ?_⟩
    · rw [List.take_append, List.append_assoc, ← i2]
    · rw [List.drop_append]; exact i3

theorem escaped_nil_left (d : List Byte) (h : Escaped [] d) : d = [] := by
  generalize he : ([] : List Byte) = e at h
  cases h with
  | nil => rfl
  | ascii => cases he
  | short => cases he
  | unicode => cases he
  | raw l c e d h1 =>
    rcases l with _ | ⟨b, l⟩
    · simp at h1
    · cases he

/-- The function `unquoteBytes` turns a literal with an escaped text between
its quotes into the string the text stands for. -/
theorem unquoteBytes_escaped (e d : List Byte) (h : Escaped e d) :
    unquoteBytes (34 :: (e ++ [34])) = some d := by
  have hlen : (34 :: (e ++ [34]) : List Byte).length = e.length + 2 := by simp
  have hlast : ((34 :: (e ++ [34]) : List Byte).getD (e.length + 2 - 1) 0).val = 34 := by
    have : e.length + 2 - 1 = e.length + 1 := by omega
    rw [this, List.getD_cons_succ, List.getD_append_right _ _ _ _ (le_refl _)]
    simp [lit_val]
  have hbody : ((34 :: (e ++ [34]) : List Byte).drop 1).take (e.length + 2 - 2) = e := by
    simp
  obtain ⟨d2, i1, i2, i3⟩ := plainLoop_escaped e d h e.length (le_refl _)
  unfold unquoteBytes
  simp only [hlen, hlast, hbody, List.getD_cons_zero, lit_val]
  norm_num
  by_cases hr : plainLoop e.length e = e.length
  · rw [if_pos hr]
    rw [hr, List.drop_length] at i3
    rw [escaped_nil_left d2 i3, hr, List.take_length, List.append_nil] at i2
    rw [i2]
  · rw [if_neg hr, unquoteLoop_escaped _ d2 i3 e.length (by simp), i2]

/-! ## The encoder writes escaped text -/

set_option maxRecDepth 100000 in
theorem getu4_control : ∀ b : Byte, b.val < 128 →
    getu4 [92, 117, 48, 48, hex (b.val >>> 4), hex (b.val &&& 0xF)] = some b.val := by
  decide

theorem EncodeRune_ascii (b : Byte) (h : b.val < 128) : utf8.EncodeRune b.val = [b] := by
  have : b.val ≤ 0x7F := by omega
  simp only [utf8.EncodeRune, this, if_true, byte_eq _ b rfl]

theorem IsSurrogate_ascii (b : Byte) (h : b.val < 128) : utf16.IsSurrogate b.val = false := by
  simp only [utf16.IsSurrogate, decide_eq_false_iff_not]; omega

/-- One iteration of the encoder on an ASCII byte. -/
theorem stringStep_ascii (b : Byte) (rest e : List Byte) (h : b.val < 128)
    (he : Escaped e rest) :
    (stringStep (b :: rest)).2 = rest ∧ Escaped ((stringStep (b :: rest)).1 ++ e) (b :: rest) := by
  have hself : b.val < utf8.RuneSelf := by unfold utf8.RuneSelf; omega
  have hstep : stringStep (b :: rest) =
      if htmlSafeSet b.val then ([b], rest)
      else if b.val = 92 ∨ b.val = 34 then ([92, b], rest)
      else if b.val = 10 then ([92, 110], rest)
      else if b.val = 13 then ([92, 114], rest)
      else if b.val = 9 then ([92, 116], rest)
      else ([92, 117, 48, 48, hex (b.val >>> 4), hex (b.val &&& 0xF)], rest) := by
    simp only [stringStep, hself, if_true]
  rw [hstep]
  by_cases hsafe : htmlSafeSet b.val = true
  · have hs := hsafe
    simp only [htmlSafeSet, decide_eq_true_eq] at hs
    rw [if_pos hsafe]
    exact ⟨rfl, Escaped.ascii b e rest hs.1 hs.2.1 hs.2.2.1 hs.2.2.2.2.2.2 he⟩
  rw [if_neg hsafe]
  by_cases h1 : b.val = 92 ∨ b.val = 34
  · rw [if_pos h1]
    exact ⟨rfl, Escaped.short b b e rest (by omega) he⟩
  rw [if_neg h1]
  by_cases h2 : b.val = 10
  · rw [if_pos h2]
    exact ⟨rfl, Escaped.short 110 b e rest (by simp [lit_val, h2]) he⟩
  rw [if_neg h2]
  by_cases h3 : b.val = 13
  · rw [if_pos h3]
    exact ⟨rfl, Escaped.short 114 b e rest (by simp [lit_val, h3]) he⟩
  rw [if_neg h3]
  by_cases h4 : b.val = 9
  · rw [if_pos h4]
    exact ⟨rfl, Escaped.short 116 b e rest (by simp [lit_val, h4]) he⟩
  rw [if_neg h4]
  have := Escaped.unicode 48 48 (hex (b.val >>> 4)) (hex (b.val &&& 0xF)) b.val e rest
    (getu4_control b h) (IsSurrogate_ascii b h) he
  rw [EncodeRune_ascii b h] at this
  exact ⟨rfl, this⟩

/-- One iteration of the encoder on a valid multi-byte encoding. -/
theorem stringStep_multi (l rest e : List Byte) (c : Nat) (h1 : 2 ≤ l.length)
    (h2 : ∀ b ∈ l, 0x80 ≤ b.val) (h3 : ∀ t, utf8.DecodeRune (l ++ t) = (c, l.length))
    (h4 : utf8.EncodeRune c = l) (h5 : utf16.IsSurrogate c = false) (he : Escaped e rest) :
    (stringStep (l ++ rest)).2 = rest ∧
      Escaped ((stringStep (l ++ rest)).1 ++ e) (l ++ rest) := by
  rcases l with _ | ⟨b, l⟩
  · simp at h1
  · have hb := h2 b (List.mem_cons_self _ _)
    have hself : ¬ b.val < utf8.RuneSelf := by unfold utf8.RuneSelf; omega
    have hd := h3 rest
    have hlen : ¬ (b :: l).length = 1 := by omega
    have hdrop : List.drop (b :: l).length (b :: (l ++ rest)) = rest := by
      rw [← List.cons_append, List.drop_left]
    have htake : List.take (b :: l).length (b :: (l ++ rest)) = b :: l := by
      rw [← List.cons_append, List.take_left]
    simp only [List.cons_append] at hd ⊢
    by_cases h28 : c = 0x2028
    · subst h28
      simp only [stringStep, hself, if_false, hd, hlen, and_false, true_or, if_true, hdrop,
        true_and]
      have := Escaped.unicode 50 48 50 (hex (0x2028 &&& 0xF)) 0x2028 e rest (by decide) h5 he
      rw [h4] at this
      exact this
    by_cases h29 : c = 0x2029
    · subst h29
      simp only [stringStep, hself, if_false, hd, hlen, and_false, or_true, if_true, hdrop,
        true_and]
      have := Escaped.unicode 50 48 50 (hex (0x2029 &&& 0xF)) 0x2029 e rest (by decide) h5 he
      rw [h4] at this
      exact this
    · simp only [stringStep, hself, if_false, hd, hlen, and_false, h28, h29, or_self, hdrop,
        htake, true_and]
      have := Escaped.raw (b :: l) c e rest h1 h2 h3 h4 he
      simpa only [List.cons_append] using this

/-- On a valid UTF-8 string the loop of the encoder writes an escaped
text that stands for the string. -/
theorem stringLoop_escaped : ∀ (fuel : Nat) (s : List Byte), s.length ≤ fuel →
    utf8.validLoop fuel s = true → Escaped (stringLoop fuel s) s := by
  intro fuel
  induction fuel with
  | zero =>
    intro s hs _
    rcases s with _ | ⟨b, rest⟩
    · exact Escaped.nil
    · simp at hs
  | succ fuel ih =>
    intro s hs hv
    rcases s with _ | ⟨b, rest⟩
    · exact Escaped.nil
    · simp only [List.length_cons] at hs
      simp only [utf8.validLoop] at hv
      cases hstep : utf8.validStep (b :: rest) with
      | none => simp [hstep] at hv
      | some size =>
        simp only [hstep] at hv
        simp only [stringLoop]
        by_cases hb : b.val < 128
        · have hsz : size = 1 := by
            have hself : b.val < utf8.RuneSelf := by unfold utf8.RuneSelf; omega
            simp [utf8.validStep, hself] at hstep
            omega
          subst hsz
          simp only [List.drop_succ_cons, List.drop_zero] at hv
          have he := ih rest (by omega) hv
          obtain ⟨e1, e2⟩ := stringStep_ascii b rest (stringLoop fuel rest) hb he
          rw [e1]
          exact e2
        · obtain ⟨l, rest2, c, hl, hlen, h2, h3, h4, h5, h6⟩ :=
            utf8.valid_head b rest size (by omega) hstep
          subst hlen
          rw [hl] at hv ⊢
          rw [List.drop_left] at hv
          have hlen2 : l.length + rest2.length = rest.length + 1 := by
            have := congrArg List.length hl
            simpa using this.symm
          have he := ih rest2 (by omega) hv
          obtain ⟨e1, e2⟩ := stringStep_multi l rest2 (stringLoop fuel rest2) c h2 h3 h4 h5 h6 he
          rw [e1]
          exact e2

/-- The encoder and `unquoteBytes`: the literal written for a valid UTF-8
string is read back as that string. -/
theorem unquoteBytes_encodeString (s : GoString) (hv : utf8.ValidString s = true) :
    unquoteBytes (encodeString s) = some s :=
  unquoteBytes_escaped _ _ (stringLoop_escaped s.length s (le_refl _) hv)

/-! ## One record, and the stream of records -/

theorem readString_escaped (e d : List Byte) (h : Escaped e d) (t : List Byte) :
    readString (34 :: (e ++ 34 :: t)) = some (d, t) := by
  simp only [readString, lit_val, scanLiteral_escaped e d h t, unquoteBytes_escaped e d h]
  norm_num

theorem readString_encodeString (s : GoString) (hv : utf8.ValidString s = true)
    (t : List Byte) : readString (encodeString s ++ t) = some (s, t) := by
  have := readString_escaped _ _ (stringLoop_escaped s.length s (le_refl _) hv) t
  simpa [encodeString] using this

theorem escaped_Key : Escaped [75, 101, 121] [75, 101, 121] :=
  Escaped.ascii 75 _ _ (by decide) (by decide) (by decide) (by decide)
    (Escaped.ascii 101 _ _ (by decide) (by decide) (by decide) (by decide)
      (Escaped.ascii 121 _ _ (by decide) (by decide) (by decide) (by decide) Escaped.nil))

theorem escaped_Value : Escaped [86, 97, 108, 117, 101] [86, 97, 108, 117, 101] :=
  Escaped.ascii 86 _ _ (by decide) (by decide) (by decide) (by decide)
    (Escaped.ascii 97 _ _ (by decide) (by decide) (by decide) (by decide)
      (Escaped.ascii 108 _ _ (by decide) (by decide) (by decide) (by decide)
        (Escaped.ascii 117 _ _ (by decide) (by decide) (by decide) (by decide)
          (Escaped.ascii 101 _ _ (by decide) (by decide) (by decide) (by decide)
            Escaped.nil))))

theorem readString_Key (t : List Byte) :
    readString (34 :: 75 :: 101 :: 121 :: 34 :: t) = some ([75, 101, 121], t) :=
  readString_escaped _ _ escaped_Key t

theorem readString_Value (t : List Byte) :
    readString (34 :: 86 :: 97 :: 108 :: 117 :: 101 :: 34 :: t) =
      some ([86, 97, 108, 117, 101], t) :=
  readString_escaped _ _ escaped_Value t

theorem setField_Key (kv : KeyValue) (val : List Byte) :
    setField kv [75, 101, 121] val = some { kv with Key := val } := by
  unfold setField
  rw [if_pos rfl]

theorem setField_Value (kv : KeyValue) (val : List Byte) :
    setField kv [86, 97, 108, 117, 101] val = some { kv with Value := val } := by
  unfold setField
  rw [if_neg (by decide), if_pos rfl]

theorem skipSpace_cons (c : Byte) (t : List Byte) (h : isSpace c.val = false) :
    skipSpace (c :: t) = c :: t := by
  simp [skipSpace, h]

theorem skipSpace_encodeString (s : GoString) (t : List Byte) :
    skipSpace (encodeString s ++ t) = encodeString s ++ t := by
  simp only [encodeString, List.singleton_append, List.cons_append]
  exact skipSpace_cons 34 _ (by decide)

/-- Decoding the members written for a record whose strings are valid
UTF-8. -/
theorem members_encoded (k : Nat) (kv : KeyValue) (hK : utf8.ValidString kv.Key = true)
    (hV : utf8.ValidString kv.Value = true) (t : List Byte) :
    members (k + 2) ⟨[], []⟩
      (34 :: 75 :: 101 :: 121 :: 34 :: 58 :: (encodeString kv.Key ++ 44 :: 34 ::
        86 :: 97 :: 108 :: 117 :: 101 :: 34 :: 58 :: (encodeString kv.Value ++ 125 :: t))) =
      some (kv, t) := by
  rw [members, readString_Key]
  simp only [skipSpace_cons 58 _ (by decide), lit_val]
  norm_num
  rw [skipSpace_encodeString, readString_encodeString kv.Key hK]
  simp only [setField_Key]
  rw [skipSpace_cons 44 _ (by decide)]
  simp only [lit_val]
  norm_num
  rw [skipSpace_cons 34 _ (by decide), members, readString_Value]
  simp only [skipSpace_cons 58 _ (by decide), lit_val]
  norm_num
  rw [skipSpace_encodeString, readString_encodeString kv.Value hV]
  simp only [setField_Value]
  rw [skipSpace_cons 125 _ (by decide)]
  simp only [lit_val]
  norm_num

theorem Encode_append (kv : KeyValue) (t : List Byte) :
    Encode kv ++ t =
      123 :: 34 :: 75 :: 101 :: 121 :: 34 :: 58 :: (encodeString kv.Key ++ 44 :: 34 ::
        86 :: 97 :: 108 :: 117 :: 101 :: 34 :: 58 :: (encodeString kv.Value ++ 125 :: 10 :: t)) := by
  simp [Encode]

/-- One `Decode` on a stream that starts with the bytes written for a
record whose strings are valid UTF-8, after at most one newline. -/
theorem Decode_Encode_append (kv : KeyValue) (hK : utf8.ValidString kv.Key = true)
    (hV : utf8.ValidString kv.Value = true) (pre t : List Byte)
    (hpre : pre = [] ∨ pre = [10]) :
    Decode (pre ++ (Encode kv ++ t)) = some (kv, 10 :: t) := by
  have hskip : skipSpace (pre ++ (Encode kv ++ t)) = Encode kv ++ t := by
    rcases hpre with rfl | rfl
    · rw [List.nil_append, Encode_append]
      exact skipSpace_cons 123 _ (by decide)
    · rw [List.singleton_append, skipSpace, if_pos (by decide), Encode_append]
      exact skipSpace_cons 123 _ (by decide)
  obtain ⟨k, hk⟩ : ∃ k, (pre ++ (Encode kv ++ t)).length = k + 2 := by
    refine ⟨(pre ++ (Encode kv ++ t)).length - 2, ?_⟩
    have : 2 ≤ (Encode kv ++ t).length := by
      rw [Encode_append]
      simp only [List.length_cons]
      omega
    simp only [List.length_append] at this ⊢
    omega
  unfold Decode
  rw [hskip, hk, Encode_append]
  simp only [lit_val]
  norm_num
  rw [skipSpace_cons 34 _ (by decide)]
  simp only [lit_val]
  norm_num
  exact members_encoded k kv hK hV (10 :: t)

theorem Decode_end (pre : List Byte) (hpre : pre = [] ∨ pre = [10]) : Decode pre = none := by
  rcases hpre with rfl | rfl <;> decide

theorem fileContents_cons (kv : KeyValue) (records : List KeyValue) :
    fileContents (kv :: records) = Encode kv ++ fileContents records := by
  simp [fileContents]

theorem Encode_length (kv : KeyValue) : 2 ≤ (Encode kv).length := by
  have := Encode_append kv []
  rw [List.append_nil] at this
  rw [this]
  simp only [List.length_cons]
  omega

theorem fileContents_length (records : List KeyValue) :
    2 * records.length ≤ (fileContents records).length := by
  induction records with
  | nil => simp [fileContents]
  | cons kv records ih =>
    have := Encode_length kv
    rw [fileContents_cons, List.length_append, List.length_cons]
    omega

/-- The decoding loop on the contents of a shard file whose records are
valid UTF-8. -/
theorem decodeLoop_fileContents (records : List KeyValue)
    (hv : ∀ kv ∈ records, utf8.ValidString kv.Key = true ∧ utf8.ValidString kv.Value = true) :
    ∀ (pre : List Byte) (fuel : Nat), (pre = [] ∨ pre = [10]) → records.length < fuel →
      decodeLoop fuel (pre ++ fileContents records) = records := by
  induction records with
  | nil =>
    intro pre fuel hpre hf
    obtain ⟨fuel, rfl⟩ : ∃ k, fuel = k + 1 := ⟨fuel - 1, by omega⟩
    have : fileContents [] = [] := rfl
    rw [this, List.append_nil, decodeLoop, Decode_end pre hpre]
  | cons kv records ih =>
    intro pre fuel hpre hf
    obtain ⟨fuel, rfl⟩ : ∃ k, fuel = k + 1 := ⟨fuel - 1, by omega⟩
    simp only [List.length_cons] at hf
    obtain ⟨hK, hV⟩ := hv kv (List.mem_cons_self _ _)
    rw [fileContents_cons, decodeLoop, Decode_Encode_append kv hK hV pre _ hpre]
    have := ih (fun kv2 h2 => hv kv2 (List.mem_cons_of_mem _ h2)) [10] fuel (Or.inr rfl)
      (by omega)
    simp only [List.singleton_append] at this
    simp only [this]

end json

/-! ## The contract of `doMap` and `ihash` -/

/-- C1: for `nReduce ≥ 1`, when `doMap` returns and no `Encode` failed, the
records written to shard `r` (any `r`, so each `r < nReduce`) are exactly the
records of `mapF`'s output with `ihash(Key) mod nReduce = r`, in the order of
`mapF`'s output, and they are written to the file
`reduceName(jobName, mapTask, r)`; when `reduceName` gives different names to
the shards, these are all the records written to that file, for `r < nReduce`. -/
theorem doMap_shard_is_filtered_output (reduceName : GoString → Int → Int → GoString) (os : OS)
    (jobName : GoString) (mapTask : Int) (inFile : GoString) (nReduce : Int)
    (mapF : GoString → GoString → List KeyValue) (fileContent : GoString)
    (hn : 1 ≤ nReduce) (hread : os.readAll inFile = some fileContent)
    (hw : ∀ i < (mapF inFile fileContent).length, os.encodeErr i = false)
    (hret : (doMap reduceName os jobName mapTask inFile nReduce mapF).1 = Outcome.returned)
    (r : Nat) :
    shardRecords r (doMap reduceName os jobName mapTask inFile nReduce mapF).2 =
        (mapF inFile fileContent).filter
          (fun kv => decide (ihash kv.Key % nReduce = (r : Int))) ∧
      (∀ file kv ok,
        Event.encode r file kv ok ∈
          (doMap reduceName os jobName mapTask inFile nReduce mapF).2 →
        file = reduceName jobName mapTask (r : Int)) ∧
      ((∀ r₁ r₂ : Nat, r₁ < nReduce.toNat → r₂ < nReduce.toNat →
          reduceName jobName mapTask (r₁ : Int) = reduceName jobName mapTask (r₂ : Int) →
          r₁ = r₂) →
        (r : Int) < nReduce →
        fileRecords (reduceName jobName mapTask (r : Int))
            (doMap reduceName os jobName mapTask inFile nReduce mapF).2 =
          (mapF inFile fileContent).filter
            (fun kv => decide (ihash kv.Key % nReduce = (r : Int)))) := by
  obtain ⟨hopen, _, _, hmax, hcreate⟩ :=
    doMap_returned reduceName os jobName mapTask inFile nReduce mapF hret
  have main : shardRecords r (doMap reduceName os jobName mapTask inFile nReduce mapF).2 =
      (mapF inFile fileContent).filter
        (fun kv => decide (ihash kv.Key % nReduce = (r : Int))) := ?_
  refine ⟨main, fun file kv ok h =>
    (doMap_encode_mem reduceName os jobName mapTask inFile nReduce mapF h).2.2.2.1,
    fun hinj hr => ?_⟩
  · rw [fileRecords_eq_shardRecords reduceName os jobName mapTask inFile nReduce mapF hinj r
      (by omega), main]
  rw [doMap_run reduceName os jobName mapTask inFile nReduce mapF fileContent hn hmax hopen
    hread hcreate]
  simp only [shardRecords_append, shardRecords_createEvents, shardRecords_closeLoop,
    encodeLoop_shardRecords os hn (shardFiles_length reduceName jobName mapTask nReduce) r
      (mapF inFile fileContent) 0 (fun j hj => by simpa using hw j hj)]
  simp only [shardRecords, List.filterMap_cons, List.filterMap_nil, List.nil_append,
    List.append_nil]
  apply List.filter_congr
  intro kv _
  simp only [toNat_eq_iff_emod kv.Key hn r]

/-- C1, on the run of the specification's example: the output
`(a,1), (b,1), (a,1)` with `nReduce = 2` gives shard 0 `(a,1), (a,1)` and
shard 1 `(b,1)`. -/
theorem doMap_shard_is_filtered_output_witness :
    (1 : Int) ≤ 2 ∧ (OS.allOk []).readAll [] = some [] ∧
      (∀ i < (threeWords [] []).length, (OS.allOk []).encodeErr i = false) ∧
      (doMap dashName (OS.allOk []) [] 0 [] 2 threeWords).1 = Outcome.returned ∧
      shardRecords 0 (doMap dashName (OS.allOk []) [] 0 [] 2 threeWords).2 =
        [⟨[97], [49]⟩, ⟨[97], [49]⟩] ∧
      shardRecords 1 (doMap dashName (OS.allOk []) [] 0 [] 2 threeWords).2 =
        [⟨[98], [49]⟩] ∧
      fileRecords (dashName [] 0 1) (doMap dashName (OS.allOk []) [] 0 [] 2 threeWords).2 =
        [⟨[98], [49]⟩] ∧
      (shardRecords 1 (doMap dashName (OS.allOk []) [] 0 [] 2 threeWords).2 =
          (threeWords [] []).filter (fun kv => decide (ihash kv.Key % 2 = ((1 : Nat) : Int))) ∧
        (∀ file kv ok,
          Event.encode 1 file kv ok ∈ (doMap dashName (OS.allOk []) [] 0 [] 2 threeWords).2 →
          file = dashName [] 0 ((1 : Nat) : Int)) ∧
        ((∀ r₁ r₂ : Nat, r₁ < (2 : Int).toNat → r₂ < (2 : Int).toNat →
            dashName [] 0 (r₁ : Int) = dashName [] 0 (r₂ : Int) → r₁ = r₂) →
          ((1 : Nat) : Int) < 2 →
          fileRecords (dashName [] 0 ((1 : Nat) : Int))
              (doMap dashName (OS.allOk []) [] 0 [] 2 threeWords).2 =
            (threeWords [] []).filter
              (fun kv => decide (ihash kv.Key % 2 = ((1 : Nat) : Int))))) :=
  ⟨by decide, rfl, fun _ _ => rfl, by decide, by decide, by decide, by decide,
    doMap_shard_is_filtered_output dashName (OS.allOk []) [] 0 [] 2 threeWords []
      (by decide) rfl (fun _ _ => rfl) (by decide) 1⟩

/-- C2: for `nReduce ≥ 1`, when `doMap` returns and no `Encode` failed, every
record of `mapF`'s output is passed to `Encode` exactly once (the sequence of
all `Encode` arguments is `mapF`'s output), the multiset sum of the records of
the `nReduce` shards is the multiset of `mapF`'s output, and a record of the
output is in shard `r` exactly when `r = ihash(Key) mod nReduce`. -/
theorem doMap_shards_partition_output (reduceName : GoString → Int → Int → GoString)
    (os : OS) (jobName : GoString) (mapTask : Int) (inFile : GoString) (nReduce : Int)
    (mapF : GoString → GoString → List KeyValue) (fileContent : GoString)
    (hn : 1 ≤ nReduce) (hread : os.readAll inFile = some fileContent)
    (hw : ∀ i < (mapF inFile fileContent).length, os.encodeErr i = false)
    (hret : (doMap reduceName os jobName mapTask inFile nReduce mapF).1 = Outcome.returned) :
    encodedRecords (doMap reduceName os jobName mapTask inFile nReduce mapF).2 =
        mapF inFile fileContent ∧
      (∑ r ∈ Finset.range nReduce.toNat,
        ((shardRecords r (doMap reduceName os jobName mapTask inFile nReduce mapF).2 :
          List KeyValue) : Multiset KeyValue)) =
        ((mapF inFile fileContent : List KeyValue) : Multiset KeyValue) ∧
      ∀ kv ∈ mapF inFile fileContent, ∀ r : Nat,
        kv ∈ shardRecords r (doMap reduceName os jobName mapTask inFile nReduce mapF).2 ↔
          ihash kv.Key % nReduce = (r : Int) := by
  obtain ⟨hopen, _, _, hmax, hcreate⟩ :=
    doMap_returned reduceName os jobName mapTask inFile nReduce mapF hret
  have hlen := shardFiles_length reduceName jobName mapTask nReduce
  have hshard : ∀ r : Nat,
      shardRecords r (doMap reduceName os jobName mapTask inFile nReduce mapF).2 =
        (mapF inFile fileContent).filter
          (fun kv => decide ((reduceID kv.Key nReduce).toNat = r)) := by
    intro r
    rw [doMap_run reduceName os jobName mapTask inFile nReduce mapF fileContent hn hmax hopen
      hread hcreate]
    simp only [shardRecords_append, shardRecords_createEvents, shardRecords_closeLoop,
      encodeLoop_shardRecords os hn hlen r (mapF inFile fileContent) 0
        (fun j hj => by simpa using hw j hj)]
    simp only [shardRecords, List.filterMap_cons, List.filterMap_nil, List.nil_append,
      List.append_nil]
  refine ⟨?_, ?_, ?_⟩
  · rw [doMap_run reduceName os jobName mapTask inFile nReduce mapF fileContent hn hmax hopen
      hread hcreate]
    simp only [encodedRecords_append, encodedRecords_createEvents, encodedRecords_closeLoop,
      encodeLoop_encodedRecords os hn hlen]
    simp only [encodedRecords, List.filterMap_cons, List.filterMap_nil, List.nil_append,
      List.append_nil]
  · simp only [hshard]
    exact sum_filter_shards (fun kv => (reduceID kv.Key nReduce).toNat) nReduce.toNat
      (mapF inFile fileContent) (fun kv _ => reduceID_toNat_lt kv.Key hn)
  · intro kv hkv r
    rw [hshard r, List.mem_filter, decide_eq_true_eq, toNat_eq_iff_emod kv.Key hn r]
    exact ⟨fun h => h.2, fun h => ⟨hkv, h⟩⟩

/-- C2, on the run of the specification's example. -/
theorem doMap_shards_partition_output_witness :
    (1 : Int) ≤ 2 ∧ (OS.allOk []).readAll [] = some [] ∧
      (∀ i < (threeWords [] []).length, (OS.allOk []).encodeErr i = false) ∧
      (doMap dashName (OS.allOk []) [] 0 [] 2 threeWords).1 = Outcome.returned ∧
      (encodedRecords (doMap dashName (OS.allOk []) [] 0 [] 2 threeWords).2 =
          threeWords [] [] ∧
        (∑ r ∈ Finset.range (2 : Int).toNat,
          ((shardRecords r (doMap dashName (OS.allOk []) [] 0 [] 2 threeWords).2 :
            List KeyValue) : Multiset KeyValue)) =
          ((threeWords [] [] : List KeyValue) : Multiset KeyValue) ∧
        ∀ kv ∈ threeWords [] [], ∀ r : Nat,
          kv ∈ shardRecords r (doMap dashName (OS.allOk []) [] 0 [] 2 threeWords).2 ↔
            ihash kv.Key % 2 = (r : Int)) :=
  ⟨by decide, rfl, fun _ _ => rfl, by decide,
    doMap_shards_partition_output dashName (OS.allOk []) [] 0 [] 2 threeWords []
      (by decide) rfl (fun _ _ => rfl) (by decide)⟩

/-- C3: for every key, the empty one included, and every `nReduce ≥ 1`, the
shard index `ihash(key) % nReduce` is at least 0 and below `nReduce`; and this
is the index `doMap` uses, in every run, for each `Encode` call. -/
theorem shard_index_in_range (key : GoString) (nReduce : Int) (hn : 1 ≤ nReduce) :
    (0 ≤ reduceID key nReduce ∧ reduceID key nReduce < nReduce) ∧
      ∀ (reduceName : GoString → Int → Int → GoString) (os : OS) (jobName : GoString)
        (mapTask : Int) (inFile : GoString) (mapF : GoString → GoString → List KeyValue)
        (s : Nat) (file : GoString) (kv : KeyValue) (ok : Bool),
        Event.encode s file kv ok ∈
          (doMap reduceName os jobName mapTask inFile nReduce mapF).2 →
        (s : Int) = reduceID kv.Key nReduce ∧ (0 : Int) ≤ s ∧ (s : Int) < nReduce := by
  refine ⟨⟨reduceID_nonneg key nReduce, reduceID_lt key hn⟩, ?_⟩
  intro reduceName os jobName mapTask inFile mapF s file kv ok h
  obtain ⟨_, hs, hlt, _⟩ := doMap_encode_mem reduceName os jobName mapTask inFile nReduce mapF h
  have h0 := reduceID_nonneg kv.Key nReduce
  omega

/-- C3, at the empty key with `nReduce = 3`: the index is 2. -/
theorem shard_index_in_range_witness :
    (1 : Int) ≤ 3 ∧ reduceID [] 3 = 2 ∧
      ((0 ≤ reduceID [] 3 ∧ reduceID [] 3 < 3) ∧
      ∀ (reduceName : GoString → Int → Int → GoString) (os : OS) (jobName : GoString)
        (mapTask : Int) (inFile : GoString) (mapF : GoString → GoString → List KeyValue)
        (s : Nat) (file : GoString) (kv : KeyValue) (ok : Bool),
        Event.encode s file kv ok ∈ (doMap reduceName os jobName mapTask inFile 3 mapF).2 →
        (s : Int) = reduceID kv.Key 3 ∧ (0 : Int) ≤ s ∧ (s : Int) < 3) :=
  ⟨by decide, by decide, shard_index_in_range [] 3 (by decide)⟩

/-- C4: for every string `s`, `ihash s` is the 32-bit FNV-1a hash of the bytes
of `s` with the top bit cleared (AND with `0x7fffffff`, which is the remainder
modulo `2^31`), hence at least 0 and below `2^31`; `ihash "" = 18652613` and
`ihash "a" = 1678518572`. -/
theorem ihash_is_masked_fnv1a :
    (∀ s : GoString,
      ihash s = ((fnv1a32 s &&& 0x7fffffff : Nat) : Int) ∧
      ihash s = ((fnv1a32 s % 2 ^ 31 : Nat) : Int) ∧
      0 ≤ ihash s ∧ ihash s < 2 ^ 31) ∧
    ihash [] = 18652613 ∧ ihash [97] = 1678518572 := by
  refine ⟨fun s => ⟨ihash_eq_land s, ?_, ihash_nonneg s, ?_⟩, by decide, by decide⟩
  · rw [ihash_eq_land, land_mask31]
  · have := ihash_lt s
    norm_num
    exact this

/-- C5: for `nReduce ≥ 1`, in every run of `doMap` the shard of an `Encode`
call is `ihash(Key) mod nReduce` and its file is `reduceName(jobName, mapTask,
shard)`, a function of the key and `nReduce` alone; hence two records whose
keys have the same `ihash mod nReduce` (equal keys in particular) are written
to the same shard and the same file, whatever their values and positions. -/
theorem doMap_colocates_equal_hashes (reduceName : GoString → Int → Int → GoString) (os : OS)
    (jobName : GoString) (mapTask : Int) (inFile : GoString) (nReduce : Int)
    (mapF : GoString → GoString → List KeyValue) (hn : 1 ≤ nReduce) :
    (∀ s file kv ok,
      Event.encode s file kv ok ∈
        (doMap reduceName os jobName mapTask inFile nReduce mapF).2 →
      (s : Int) = ihash kv.Key % nReduce ∧
        file = reduceName jobName mapTask (ihash kv.Key % nReduce)) ∧
    (∀ s₁ file₁ kv₁ ok₁ s₂ file₂ kv₂ ok₂,
      Event.encode s₁ file₁ kv₁ ok₁ ∈
        (doMap reduceName os jobName mapTask inFile nReduce mapF).2 →
      Event.encode s₂ file₂ kv₂ ok₂ ∈
        (doMap reduceName os jobName mapTask inFile nReduce mapF).2 →
      ihash kv₁.Key % nReduce = ihash kv₂.Key % nReduce →
      s₁ = s₂ ∧ file₁ = file₂) ∧
    (∀ fileContent, os.readAll inFile = some fileContent →
      (doMap reduceName os jobName mapTask inFile nReduce mapF).1 = Outcome.returned →
      encodedRecords (doMap reduceName os jobName mapTask inFile nReduce mapF).2 =
        mapF inFile fileContent) := by
  have key : ∀ s file kv ok,
      Event.encode s file kv ok ∈
        (doMap reduceName os jobName mapTask inFile nReduce mapF).2 →
      (s : Int) = ihash kv.Key % nReduce ∧
        file = reduceName jobName mapTask (ihash kv.Key % nReduce) := by
    intro s file kv ok h
    obtain ⟨_, hs, _, hf, _⟩ :=
      doMap_encode_mem reduceName os jobName mapTask inFile nReduce mapF h
    have h1 := (toNat_eq_iff_emod kv.Key hn s).mp hs.symm
    exact ⟨h1.symm, by rw [hf, h1]⟩
  refine ⟨key, ?_, ?_⟩
  · intro s₁ file₁ kv₁ ok₁ s₂ file₂ kv₂ ok₂ h₁ h₂ heq
    obtain ⟨a1, b1⟩ := key _ _ _ _ h₁
    obtain ⟨a2, b2⟩ := key _ _ _ _ h₂
    refine ⟨?_, by rw [b1, b2, heq]⟩
    have : (s₁ : Int) = (s₂ : Int) := by rw [a1, a2, heq]
    exact_mod_cast this
  · intro fileContent hread hret
    obtain ⟨hopen, _, _, hmax, hcreate⟩ :=
      doMap_returned reduceName os jobName mapTask inFile nReduce mapF hret
    rw [doMap_run reduceName os jobName mapTask inFile nReduce mapF fileContent hn hmax hopen
      hread hcreate]
    simp only [encodedRecords_append, encodedRecords_createEvents, encodedRecords_closeLoop,
      encodeLoop_encodedRecords os hn (shardFiles_length reduceName jobName mapTask nReduce)]
    simp only [encodedRecords, List.filterMap_cons, List.filterMap_nil, List.nil_append,
      List.append_nil]

/-- C5, on the run of the specification's example: both records of key `a`
are written to shard 0. -/
theorem doMap_colocates_equal_hashes_witness :
    (1 : Int) ≤ 2 ∧
      Event.encode 0 [] ⟨[97], [49]⟩ true ∈
        (doMap dashName (OS.allOk []) [] 0 [] 2 threeWords).2 ∧
      ((∀ s file kv ok,
        Event.encode s file kv ok ∈ (doMap dashName (OS.allOk []) [] 0 [] 2 threeWords).2 →
        (s : Int) = ihash kv.Key % 2 ∧ file = dashName [] 0 (ihash kv.Key % 2)) ∧
      (∀ s₁ file₁ kv₁ ok₁ s₂ file₂ kv₂ ok₂,
        Event.encode s₁ file₁ kv₁ ok₁ ∈
          (doMap dashName (OS.allOk []) [] 0 [] 2 threeWords).2 →
        Event.encode s₂ file₂ kv₂ ok₂ ∈
          (doMap dashName (OS.allOk []) [] 0 [] 2 threeWords).2 →
        ihash kv₁.Key % 2 = ihash kv₂.Key % 2 →
        s₁ = s₂ ∧ file₁ = file₂) ∧
      (∀ fileContent, (OS.allOk []).readAll [] = some fileContent →
        (doMap dashName (OS.allOk []) [] 0 [] 2 threeWords).1 = Outcome.returned →
        encodedRecords (doMap dashName (OS.allOk []) [] 0 [] 2 threeWords).2 =
          threeWords [] fileContent)) :=
  ⟨by decide, by decide,
    doMap_colocates_equal_hashes dashName (OS.allOk []) [] 0 [] 2 threeWords (by decide)⟩

/-- C7, the code at a failing input: with `nReduce = 1` and one record, when
the `Encode` call and the `Close` call both return an error, `doMap` still
returns normally, the two errors dropped. -/
theorem doMap_returns_despite_write_and_close_errors :
    doMap dashName (OS.writesFail []) [] 0 [] 1 (fun _ _ => [⟨[97], [49]⟩]) =
      (Outcome.returned,
        [Event.openInput [] true, Event.readInput true, Event.callMapF [] [],
          Event.create [] true, Event.encode 0 [] ⟨[97], [49]⟩ false,
          Event.close 0 [] false, Event.closeInput]) := by
  decide

/-- C8: when opening `inFile` fails, or reading it fails, `doMap` ends in
`log.Fatal`, and in that run `mapF` is not called, no file is created, no
record is encoded and no shard file is closed. -/
theorem doMap_input_failure_is_fatal (reduceName : GoString → Int → Int → GoString) (os : OS)
    (jobName : GoString) (mapTask : Int) (inFile : GoString) (nReduce : Int)
    (mapF : GoString → GoString → List KeyValue)
    (h : os.openErr inFile = true ∨ os.readAll inFile = none) :
    (∃ msg, (doMap reduceName os jobName mapTask inFile nReduce mapF).1 = Outcome.fatal msg) ∧
      (∀ e ∈ (doMap reduceName os jobName mapTask inFile nReduce mapF).2,
        e = Event.openInput inFile false ∨ e = Event.openInput inFile true ∨
          e = Event.readInput false) ∧
      (∀ f c, Event.callMapF f c ∉
        (doMap reduceName os jobName mapTask inFile nReduce mapF).2) ∧
      createdNames (doMap reduceName os jobName mapTask inFile nReduce mapF).2 = [] ∧
      encodedRecords (doMap reduceName os jobName mapTask inFile nReduce mapF).2 = [] ∧
      closedShards (doMap reduceName os jobName mapTask inFile nReduce mapF).2 = [] := by
  by_cases hopen : os.openErr inFile = true
  · have : doMap reduceName os jobName mapTask inFile nReduce mapF =
        (Outcome.fatal "open file error in doMap", [Event.openInput inFile false]) := by
      simp [doMap, hopen]
    rw [this]
    exact ⟨⟨_, rfl⟩, by simp, by simp, rfl, rfl, rfl⟩
  · have hread : os.readAll inFile = none := h.resolve_left hopen
    have : doMap reduceName os jobName mapTask inFile nReduce mapF =
        (Outcome.fatal "read file error in doMap",
          [Event.openInput inFile true, Event.readInput false]) := by
      simp [doMap, hopen, hread]
    rw [this]
    exact ⟨⟨_, rfl⟩, by simp, by simp, rfl, rfl, rfl⟩

/-- C8, on a run whose `os.Open` fails. -/
theorem doMap_input_failure_is_fatal_witness :
    (OS.openFails.openErr [] = true ∨ OS.openFails.readAll [] = none) ∧
      ((∃ msg, (doMap dashName OS.openFails [] 0 [] 2 threeWords).1 = Outcome.fatal msg) ∧
      (∀ e ∈ (doMap dashName OS.openFails [] 0 [] 2 threeWords).2,
        e = Event.openInput [] false ∨ e = Event.openInput [] true ∨
          e = Event.readInput false) ∧
      (∀ f c, Event.callMapF f c ∉ (doMap dashName OS.openFails [] 0 [] 2 threeWords).2) ∧
      createdNames (doMap dashName OS.openFails [] 0 [] 2 threeWords).2 = [] ∧
      encodedRecords (doMap dashName OS.openFails [] 0 [] 2 threeWords).2 = [] ∧
      closedShards (doMap dashName OS.openFails [] 0 [] 2 threeWords).2 = []) :=
  ⟨Or.inl rfl, doMap_input_failure_is_fatal dashName OS.openFails [] 0 [] 2 threeWords
    (Or.inl rfl)⟩

/-- C10: for `nReduce ≥ 1`, the slice built by a creation loop that ran to
its end has length `nReduce`; for every record the divisor `nReduce` is not
zero and the index `ihash(Key) % nReduce` is within the bounds of that slice;
the routing loop does not panic, and when `make` accepts the capacity
(`nReduce ≤ 2 ^ 45`) no run of `doMap` ends in a panic.  With `nReduce = 0`
and a non-empty output of `mapF`, `doMap` panics with a division by zero. -/
theorem routing_loop_cannot_panic (reduceName : GoString → Int → Int → GoString) (os : OS)
    (jobName : GoString) (mapTask : Int) (inFile : GoString) (nReduce : Int)
    (mapF : GoString → GoString → List KeyValue) (hn : 1 ≤ nReduce) :
    (∀ files evs,
      createLoop reduceName os jobName mapTask (List.range nReduce.toNat) [] =
        (Except.ok files, evs) →
      files.length = nReduce.toNat ∧
      (∀ kv : KeyValue, nReduce ≠ 0 ∧ 0 ≤ Int.tmod (ihash kv.Key) nReduce ∧
        (Int.tmod (ihash kv.Key) nReduce).toNat < files.length) ∧
      ∀ (mapOutput : List KeyValue) (i : Nat),
        (encodeLoop os nReduce files mapOutput i).1 = none) ∧
    (nReduce ≤ 2 ^ 45 →
      ∀ msg, (doMap reduceName os jobName mapTask inFile nReduce mapF).1 ≠ Outcome.panic msg) ∧
    (∀ fileContent, os.openErr inFile = false → os.readAll inFile = some fileContent →
      mapF inFile fileContent ≠ [] →
      (doMap reduceName os jobName mapTask inFile 0 mapF).1 =
        Outcome.panic "runtime error: integer divide by zero") := by
  refine ⟨?_, fun hmax => doMap_no_panic reduceName os jobName mapTask inFile nReduce mapF hn
    hmax, ?_⟩
  · intro files evs hc
    obtain ⟨e1, _, _⟩ := createLoop_some reduceName os jobName mapTask _ _ _ _ hc
    have hlen : files.length = nReduce.toNat := by simp [e1]
    refine ⟨hlen, fun kv => ⟨by omega, reduceID_nonneg kv.Key nReduce, ?_⟩,
      encodeLoop_no_panic os hn hlen⟩
    rw [hlen]
    exact reduceID_toNat_lt kv.Key hn
  · intro fileContent hopen hread hne
    have h0 : makesliceCapOutOfRange 0 = false := by decide
    cases hout : mapF inFile fileContent with
    | nil => exact absurd hout hne
    | cons kv rest =>
      simp [doMap, hopen, hread, hout, createLoop, encodeLoop, h0]

/-- C10, on the run of the specification's example, and on the same run
with `nReduce = 0`. -/
theorem routing_loop_cannot_panic_witness :
    (1 : Int) ≤ 2 ∧ (2 : Int) ≤ 2 ^ 45 ∧
      (doMap dashName (OS.allOk []) [] 0 [] 2 threeWords).1 = Outcome.returned ∧
      (doMap dashName (OS.allOk []) [] 0 [] 0 threeWords).1 =
        Outcome.panic "runtime error: integer divide by zero" ∧
      ((∀ files evs,
        createLoop dashName (OS.allOk []) [] 0 (List.range (2 : Int).toNat) [] =
          (Except.ok files, evs) →
        files.length = (2 : Int).toNat ∧
        (∀ kv : KeyValue, (2 : Int) ≠ 0 ∧ 0 ≤ Int.tmod (ihash kv.Key) 2 ∧
          (Int.tmod (ihash kv.Key) 2).toNat < files.length) ∧
        ∀ (mapOutput : List KeyValue) (i : Nat),
          (encodeLoop (OS.allOk []) 2 files mapOutput i).1 = none) ∧
      ((2 : Int) ≤ 2 ^ 45 →
        ∀ msg, (doMap dashName (OS.allOk []) [] 0 [] 2 threeWords).1 ≠ Outcome.panic msg) ∧
      (∀ fileContent, (OS.allOk []).openErr [] = false →
        (OS.allOk []).readAll [] = some fileContent →
        threeWords [] fileContent ≠ [] →
        (doMap dashName (OS.allOk []) [] 0 [] 0 threeWords).1 =
          Outcome.panic "runtime error: integer divide by zero")) :=
  ⟨by decide, by decide, by decide, by decide,
    routing_loop_cannot_panic dashName (OS.allOk []) [] 0 [] 2 threeWords (by decide)⟩

/-- C9 as stated fails: the records with the keys `0xff` and `0xfe`, which
are not valid UTF-8, are written as the same bytes (each invalid byte becomes
the escape of U+FFFD), so no reader tells them apart; decoding what is written
for the first one gives the key `EF BF BD`, not `0xff`. -/
theorem roundtrip_fails_on_invalid_utf8 :
    badKey.Key ≠ badKey2.Key ∧ json.Encode badKey = json.Encode badKey2 ∧
      json.Decode (json.Encode badKey) = some (⟨[0xEF, 0xBF, 0xBD], [49]⟩, [10]) ∧
      json.readRecords (json.fileContents [badKey]) ≠ [badKey] := by
  decide

/-- C9, amended: for records whose `Key` and `Value` are valid UTF-8 (newlines,
quotes, control characters and all other characters included), decoding the
stream of their encodings gives back the records, equal in `Key` and `Value`
and in the same order; and one `Decode` on the bytes of a record, whatever
follows them in the stream, gives back the record and leaves the stream after
the closing brace. -/
theorem roundtrip_valid_utf8 (records : List KeyValue)
    (hv : ∀ kv ∈ records,
      utf8.ValidString kv.Key = true ∧ utf8.ValidString kv.Value = true) :
    json.readRecords (json.fileContents records) = records ∧
      ∀ kv ∈ records, ∀ t, json.Decode (json.Encode kv ++ t) = some (kv, 10 :: t) := by
  refine ⟨?_, ?_⟩
  · rcases records with _ | ⟨kv, records⟩
    · rfl
    · have hlen := json.fileContents_length (kv :: records)
      simp only [List.length_cons] at hlen
      have := json.decodeLoop_fileContents (kv :: records) hv []
        (json.fileContents (kv :: records)).length (Or.inl rfl)
        (by simp only [List.length_cons]; omega)
      simpa only [json.readRecords, List.nil_append] using this
  · intro kv hkv t
    obtain ⟨hK, hV⟩ := hv kv hkv
    simpa only [List.nil_append] using
      json.Decode_Encode_append kv hK hV [] t (Or.inl rfl)

/-- C9, amended, on a record with a newline, a quote, a backslash, a
control character and multi-byte characters. -/
theorem roundtrip_valid_utf8_witness :
    (∀ kv ∈ [oddRecord, ⟨[], []⟩],
      utf8.ValidString kv.Key = true ∧ utf8.ValidString kv.Value = true) ∧
      (json.readRecords (json.fileContents [oddRecord, ⟨[], []⟩]) = [oddRecord, ⟨[], []⟩] ∧
        ∀ kv ∈ [oddRecord, ⟨[], []⟩], ∀ t,
          json.Decode (json.Encode kv ++ t) = some (kv, 10 :: t)) :=
  ⟨by decide, roundtrip_valid_utf8 [oddRecord, ⟨[], []⟩] (by decide)⟩

end MapReduce
